import Mathlib

/-!
# Verification of the medup line lexer (`src/lexer.rs`)

A shallow embedding of the single-line Markdown lexer: text is a `List Char`,
the block classifier (`split` / `extract_mark`), the per-character inline
automaton (`split_inline`), the emphasis/code-span resolver (`tidy`,
`tidy_continuous_mark`) and the link-detail extractor
(`split_generic_link_details`) are translated function by function from the
Rust source.  The URL/email validators live in external crates; following the
spec's "pluggable capability interfaces" design they are parameters
(`Validators`), with minimal conformant instances modelled from the spec for
concrete evaluation.
-/

set_option maxRecDepth 8000

namespace Medup

/-- Rust `char::is_whitespace`: the Unicode `White_Space` property. -/
def isWhitespaceChar (c : Char) : Bool :=
  c = ' ' || c = '\t' || c = '\n' || c.toNat = 0x0B || c.toNat = 0x0C || c = '\r' ||
  c.toNat = 0x85 || c.toNat = 0xA0 || c.toNat = 0x1680 ||
  (0x2000 ≤ c.toNat && c.toNat ≤ 0x200A) ||
  c.toNat = 0x2028 || c.toNat = 0x2029 || c.toNat = 0x202F || c.toNat = 0x205F ||
  c.toNat = 0x3000

/-- `utf8_slice::slice`: character-indexed half-open slice `[a, b)`. -/
def lslice (l : List Char) (a b : Nat) : List Char := (l.take b).drop a

/-- Rust `str::trim_start` (whitespace). -/
def trimStart (s : List Char) : List Char := s.dropWhile (fun c => isWhitespaceChar c)

/-- Rust `str::trim_end` (whitespace). -/
def trimEnd (s : List Char) : List Char :=
  (s.reverse.dropWhile (fun c => isWhitespaceChar c)).reverse

/-- Rust `str::trim`. -/
def trimChars (s : List Char) : List Char := trimEnd (trimStart s)

/-- Rust `str::trim_end_matches('\n')`. -/
def trimEndNewlines (s : List Char) : List Char :=
  (s.reverse.dropWhile (fun c => c = '\n')).reverse

/-- Fuel-driven helper for `trim_end_matches("<br>")`: strips the suffix
`<br>` as long as it is present (fuel bounds the number of strips). -/
def stripBrAux : Nat → List Char → List Char
  | 0, s => s
  | n + 1, s =>
    if ['<', 'b', 'r', '>'].isSuffixOf s then stripBrAux n (s.take (s.length - 4)) else s

/-- Rust `str::trim_end_matches("<br>")`. -/
def trimEndMatchesBr (s : List Char) : List Char := stripBrAux s.length s

/-- `Lexer::has_br`: two trailing spaces before the newline, or a trailing
`<br>` marker after trimming trailing whitespace. -/
def has_br (s : List Char) : Bool :=
  if [' ', ' ', '\n'].isSuffixOf s then true
  else ['<', 'b', 'r', '>'].isSuffixOf (trimEnd s)

/-- The reserved punctuation set `ESCAPE_CHARS = ":*_`#+-.![]()<>\\"`. -/
def escapeChars : List Char :=
  [':', '*', '_', '`', '#', '+', '-', '.', '!', '[', ']', '(', ')', '<', '>', '\\']

/-- `TokenKind` from `src/lexer.rs`. -/
inductive TokenKind where
  | TitleMark
  | UnorderedMark
  | OrderedMark
  | DividingMark
  | QuoteMark
  | BoldMark
  | ItalicMark
  | ItalicBoldMark
  | CodeBlockMark
  | CodeMark
  | BlankLine
  | LineBreak
  | Image
  | Link
  | QuickLink
  | RefLink
  | RefLinkDef
  | Text
  | Star
  | UnderLine
  | BackTick
  | WhiteSpace
  deriving DecidableEq, Repr

/-- The attribute keys used in `Token.details` (`"name"`, `"location"`,
`"title"`, `"ptr"`). -/
inductive AttrKey where
  | name
  | location
  | title
  | ptr
  deriving DecidableEq, Repr

/-- Insertion into the `details` map (`HashMap::insert`): overwrite an
existing key, otherwise append. -/
def assocInsert (m : List (AttrKey × List Char)) (k : AttrKey) (v : List Char) :
    List (AttrKey × List Char) :=
  match m with
  | [] => [(k, v)]
  | (k', v') :: rest => if k' = k then (k, v) :: rest else (k', v') :: assocInsert rest k v

/-- Lookup in the `details` map (`HashMap::get`). -/
def assocGet (m : List (AttrKey × List Char)) (k : AttrKey) : Option (List Char) :=
  match m with
  | [] => none
  | (k', v') :: rest => if k' = k then some v' else assocGet rest k

/-- `Token` from `src/lexer.rs`: an owned text span, a kind, and the optional
attribute mapping. -/
structure Token where
  value : List Char
  kind : TokenKind
  details : Option (List (AttrKey × List Char))
  deriving DecidableEq, Repr

instance : Inhabited Token := ⟨⟨[], .Text, none⟩⟩

/-- `Token::insert`: `details.get_or_insert(HashMap::new()).insert(k, v)`. -/
def Token.insert (t : Token) (k : AttrKey) (v : List Char) : Token :=
  ⟨t.value, t.kind, some (assocInsert (t.details.getD []) k v)⟩

/-- Attribute lookup through the optional `details` map. -/
def Token.attr (t : Token) (k : AttrKey) : Option (List Char) :=
  match t.details with
  | none => none
  | some m => assocGet m k

/-- `GenericLinkTokenAsMut::insert_name`. -/
def insert_name (t : Token) (v : List Char) : Token :=
  if v = [] then t else t.insert .name v

/-- `GenericLinkTokenAsMut::insert_location`. -/
def insert_location (t : Token) (v : List Char) : Token :=
  if v = [] then t else t.insert .location v

/-- Quote stripping done by `insert_title`:
`trim_end_matches(['"', '\''])` then `trim_start_matches(['"', '\''])`. -/
def stripQuotes (v : List Char) : List Char :=
  ((v.reverse.dropWhile (fun c => c = '"' || c = '\'')).reverse).dropWhile
    (fun c => c = '"' || c = '\'')

/-- `GenericLinkTokenAsMut::insert_title`: skipped when the raw string is
empty, otherwise the stored value has surrounding quote characters stripped. -/
def insert_title (t : Token) (v : List Char) : Token :=
  if v = [] then t else t.insert .title (stripQuotes v)

/-- `GenericLinkTokenAsMut::insert_reflink_tag`. -/
def insert_reflink_tag (t : Token) (v : List Char) : Token :=
  if v = [] then t else t.insert .ptr v

/-- `'1'..='9'`. -/
def digit19 (c : Char) : Bool := decide ('1' ≤ c ∧ c ≤ '9')

/-- `'0'..='9'`. -/
def digit09 (c : Char) : Bool := decide ('0' ≤ c ∧ c ≤ '9')

/-- The ordered-list first-word patterns of `extract_mark`
(`[n1, '.']`, `[n1, n2, '.']`, `[n1, n2, n3, '.']` with their digit guards). -/
def isOrderedWord (w : List Char) : Bool :=
  match w with
  | [a, b] => digit19 a && b = '.'
  | [a, b, c] => digit19 a && digit09 b && c = '.'
  | [a, b, c, d] => digit19 a && digit09 b && digit09 c && d = '.'
  | _ => false

/-- `Lexer::is_dividing`: exactly one distinct non-whitespace character in the
line, and (looking the count up for `'*'`, then `'-'`, then `'_'`) at least
three occurrences. -/
def is_dividing (s : List Char) : Bool :=
  let nonws := s.filter (fun c => !(isWhitespaceChar c))
  (nonws.dedup.length == 1) &&
    decide (3 ≤
      if 0 < nonws.count '*' then nonws.count '*'
      else if 0 < nonws.count '-' then nonws.count '-'
      else if 0 < nonws.count '_' then nonws.count '_'
      else 0)

/-- `Lexer::extract_mark`: classify the first whitespace-delimited word of the
line.  The Rust `match` arms (with their fall-through on failed guards) are
rendered as a sequential chain of tests. -/
def extract_mark (line w : List Char) : Option Token :=
  if w = ['#'] || w = ['#', '#'] || w = ['#', '#', '#'] || w = ['#', '#', '#', '#'] then
    some ⟨w, .TitleMark, none⟩
  else if isOrderedWord w then
    some ⟨w, .OrderedMark, none⟩
  else if w = ['>'] then
    some ⟨w, .QuoteMark, none⟩
  else if w.take 3 = ['`', '`', '`'] then
    some ⟨['`', '`', '`'], .CodeBlockMark, none⟩
  else if w = ['+'] then
    some ⟨w, .UnorderedMark, none⟩
  else if w = ['*'] || w = ['-'] then
    if is_dividing line then some ⟨trimEndNewlines line, .DividingMark, none⟩
    else some ⟨w, .UnorderedMark, none⟩
  else if (match w with
           | c :: _ => c = '*' || c = '-' || c = '_'
           | [] => false) then
    if is_dividing line then some ⟨trimEndNewlines line, .DividingMark, none⟩
    else none
  else none

/-- The quoted-string regexes `^"([^"\\]|\\.)*"$` and `^'([^'\\]|\\.)*'$`:
body parser after the opening quote, expecting the closing quote as the final
character. -/
def quotedTail (q : Char) : List Char → Bool
  | [] => false
  | [c] => c = q
  | c :: d :: rest =>
    if c = '\\' then (d ≠ '\n') && quotedTail q rest
    else (c ≠ q) && quotedTail q (d :: rest)

/-- `Lexer::is_quoted_string`. -/
def is_quoted_string (s : List Char) : Bool :=
  (match s with
   | c :: rest => (c = '"') && quotedTail '"' rest
   | [] => false) ||
  (match s with
   | c :: rest => (c = '\'') && quotedTail '\'' rest
   | [] => false)

/-- Rust `s2.splitn(2, [' ', '\t'])` as a list of fields: split at the first
space or tab, the remainder (separator dropped) is the second field. -/
def splitnTwo (s : List Char) : List (List Char) :=
  let sep := fun c => c = ' ' || c = '\t'
  match s.dropWhile (fun c => !(sep c)) with
  | [] => [s]
  | _ :: rest => [s.takeWhile (fun c => !(sep c)), rest]

/-- `Lexer::split_generic_link_details`: split the trailing clause into
location and (optionally quoted) title, and populate the attributes for the
link-family kind; an invalidly quoted title degrades the token to `Text`. -/
def split_generic_link_details (s s1 s2 : List Char) (kind : TokenKind) : Token :=
  let s2t := trimChars s2
  let fields := splitnTwo s2t
  let klt : TokenKind × List Char × List Char :=
    if fields.length < 2 then (kind, s2t, [])
    else if is_quoted_string (fields.getD 1 []) then (kind, fields.getD 0 [], fields.getD 1 [])
    else (.Text, [], [])
  let t : Token := ⟨s, klt.1, none⟩
  match klt.1 with
  | .Image => insert_title (insert_location (insert_name t s1) klt.2.1) klt.2.2
  | .Link => insert_title (insert_location (insert_name t s1) klt.2.1) klt.2.2
  | .RefLink => insert_reflink_tag (insert_name t s1) s2t
  | .RefLinkDef => insert_title (insert_location (insert_reflink_tag t s1) klt.2.1) klt.2.2
  | .QuickLink => insert_location (insert_name t s1) klt.2.1
  | _ => t

/-- The pluggable URL/email syntax validators (the `url` and `email_address`
crates are external capabilities per the spec's §6/§9). -/
structure Validators where
  isUrl : List Char → Bool
  isEmail : List Char → Bool

/-- `InlineState` from `src/lexer.rs`. -/
inductive InlineState where
  | Skip
  | Finished
  | Normal
  | Continuous (b : Nat)
  | ImgBegin (b : Nat)
  | ImgNameBegin (b1 b2 : Nat)
  | LinkNameBegin (b : Nat)
  | NameEnd (b1 : Option Nat) (b2 b3 : Nat)
  | RefLink (b1 b2 b3 : Nat)
  | RefLinkDef (b1 b2 b3 : Nat)
  | Location (b1 : Option Nat) (b2 b3 b4 : Nat)
  | QuickLink (b : Nat)
  deriving DecidableEq, Repr

/-- An empty text span is not pushed. -/
def textIf (s : List Char) : List Token := if s = [] then [] else [⟨s, .Text, none⟩]

/-- `peek()` with the given default (`unwrap_or`). -/
def peekD (pairs : List (Nat × Char)) (d : Char) : Char :=
  match pairs with
  | [] => d
  | (_, c) :: _ => c

/-- The raw delimiter kind for `'*'` / `'_'` / `` '`' ``. -/
def markKindOf (c : Char) : TokenKind :=
  if c = '*' then .Star else if c = '_' then .UnderLine else .BackTick

/-- The body of `Lexer::split_inline`'s `while let` loop, one case per
`match (state, ch)` arm, in the arm order of the source (newline first, then
escape, then the per-state arms). -/
def inlineLoop (V : Validators) (content : List Char) :
    List (Nat × Char) → InlineState → Nat → List Token → List Token
  | [], _, _, buff => buff
  | (ix, ch) :: rest, st, last, buff =>
    if ch = '\n' then
      buff ++ textIf (trimEndMatchesBr (trimEnd (lslice content last ix)))
    else if ch = '\\' then
      if escapeChars.contains (peekD rest 'x') then
        inlineLoop V content rest .Skip (ix + 1) (buff ++ textIf (lslice content last ix))
      else
        inlineLoop V content rest st last buff
    else
      match st with
      | .Skip => inlineLoop V content rest .Normal last buff
      | .Normal =>
        if ch = '*' || ch = '_' || ch = '`' then
          let buff := buff ++ textIf (lslice content last ix)
          if peekD rest ' ' = ch then
            inlineLoop V content rest (.Continuous ix) ix buff
          else
            inlineLoop V content rest .Normal (ix + 1)
              (buff ++ [⟨lslice content ix (ix + 1), markKindOf ch, none⟩])
        else if ch = '!' then inlineLoop V content rest (.ImgBegin ix) last buff
        else if ch = '[' then inlineLoop V content rest (.LinkNameBegin ix) last buff
        else if ch = '<' then inlineLoop V content rest (.QuickLink ix) last buff
        else inlineLoop V content rest .Normal last buff
      | .Continuous bg =>
        if peekD rest ' ' ≠ ch then
          inlineLoop V content rest .Normal (ix + 1)
            (buff ++ [⟨lslice content bg (ix + 1), markKindOf ch, none⟩])
        else inlineLoop V content rest (.Continuous bg) last buff
      | .ImgBegin b =>
        if ch = '[' then inlineLoop V content rest (.ImgNameBegin b ix) last buff
        else if ch = '!' then inlineLoop V content rest (.ImgBegin ix) last buff
        else inlineLoop V content rest .Normal last buff
      | .ImgNameBegin b1 b2 =>
        if ch = ']' then inlineLoop V content rest (.NameEnd (some b1) b2 ix) last buff
        else inlineLoop V content rest (.ImgNameBegin b1 b2) last buff
      | .LinkNameBegin b =>
        if ch = ']' then inlineLoop V content rest (.NameEnd none b ix) last buff
        else if ch = '[' then inlineLoop V content rest (.LinkNameBegin ix) last buff
        else inlineLoop V content rest (.LinkNameBegin b) last buff
      | .NameEnd b1 b2 b3 =>
        if ch = '(' then inlineLoop V content rest (.Location b1 b2 b3 ix) last buff
        else if ch = ']' then inlineLoop V content rest (.NameEnd b1 b2 ix) last buff
        else if ch = '[' then inlineLoop V content rest (.RefLink b2 b3 ix) last buff
        else if ch = ':' then inlineLoop V content rest (.RefLinkDef b2 b3 ix) last buff
        else inlineLoop V content rest .Normal last buff
      | .RefLink b1 b2 b3 =>
        if ch = ']' then
          let buff := buff ++ textIf (lslice content last b1)
          let t := split_generic_link_details (lslice content b1 (ix + 1))
            (lslice content (b1 + 1) b2) (lslice content (b3 + 1) ix) .RefLink
          inlineLoop V content rest .Normal (ix + 1) (buff ++ [t])
        else inlineLoop V content rest (.RefLink b1 b2 b3) last buff
      | .RefLinkDef b1 b2 _b3 =>
        let t := split_generic_link_details (trimEndNewlines (content.drop last))
          (lslice content (b1 + 1) b2) (trimEndNewlines (content.drop ix)) .RefLinkDef
        inlineLoop V content rest .Finished last (buff ++ [t])
      | .Location b1 b2 b3 b4 =>
        if ch = ')' then
          let bg := b1.getD b2
          let buff := buff ++ textIf (lslice content last bg)
          let k : TokenKind := if b1.isSome then .Image else .Link
          let t := split_generic_link_details (lslice content bg (ix + 1))
            (lslice content (b2 + 1) b3) (lslice content (b4 + 1) ix) k
          inlineLoop V content rest .Normal (ix + 1) (buff ++ [t])
        else inlineLoop V content rest (.Location b1 b2 b3 b4) last buff
      | .QuickLink b =>
        if isWhitespaceChar ch then
          let s := trimChars (lslice content (b + 1) ix)
          if (!s.isEmpty) && !(V.isUrl s || V.isEmail s) then
            inlineLoop V content rest .Normal last buff
          else inlineLoop V content rest (.QuickLink b) last buff
        else if ch = '>' then
          let link := trimChars (lslice content (b + 1) ix)
          if V.isUrl link || V.isEmail link then
            let buff := buff ++ textIf (lslice content last b)
            let t := split_generic_link_details (lslice content b (ix + 1)) link link .QuickLink
            inlineLoop V content rest .Normal (ix + 1) (buff ++ [t])
          else inlineLoop V content rest .Normal last buff
        else inlineLoop V content rest (.QuickLink b) last buff
      | .Finished => buff

/-- The split-point recording loop of `Lexer::tidy_continuous_mark` (over the
enumerated tokens of the given kind, tracking the previous run length). -/
def tcmLoop (kind : TokenKind) : List (Nat × Token) → Nat → List (Nat × Nat) → List (Nat × Nat)
  | [], _, acc => acc
  | (ix, t) :: rest, pre, acc =>
    if t.kind = kind then
      if pre ≤ t.value.length ∧ 0 < pre then
        let n := t.value.length - pre
        if 0 < n then tcmLoop kind rest n (acc ++ [(ix + acc.length, pre)])
        else tcmLoop kind rest 0 acc
      else tcmLoop kind rest t.value.length acc
    else tcmLoop kind rest pre acc

/-- `Vec::insert` at an index. -/
def insertAt (l : List Token) (n : Nat) (a : Token) : List Token :=
  l.take n ++ a :: l.drop n

/-- Apply the recorded splits: `split_off` the token's value at the recorded
length (the new token of the same kind is inserted right after). -/
def applySplits (buff : List Token) (splits : List (Nat × Nat)) : List Token :=
  splits.foldl
    (fun b p =>
      let t := b.getD p.1 default
      insertAt (b.set p.1 ⟨t.value.take p.2, t.kind, t.details⟩) (p.1 + 1)
        ⟨t.value.drop p.2, t.kind, none⟩)
    buff

/-- `Lexer::tidy_continuous_mark`. -/
def tidy_continuous_mark (kind : TokenKind) (buff : List Token) : List Token :=
  applySplits buff (tcmLoop kind buff.enum 0 [])

/-- Modelled from the spec: the resolver's pending-delimiter stack
(`stack::Stack` with `push` / `pop_range` / `all_mut`; the `stack` module is
not part of src/).  Per §4.3, `pop_range` searches the stack top to bottom
for the first entry matching the predicate; if found it removes and returns
that entry together with every entry pushed after it (matched entry first);
if no entry matches, nothing is popped and the empty list is returned.  The
stack holds indices into the token buffer (§9 design note). -/
def popRange (buff : List Token) (t : Token) (stack : List Nat) : List Nat × List Nat :=
  match stack.span
      (fun i => !(decide ((buff.getD i default).kind = t.kind ∧
        (buff.getD i default).value = t.value))) with
  | (_, []) => ([], stack)
  | (above, m :: below) => (m :: above, below)

/-- Rewrite the kind of the token at an index. -/
def setKind (buff : List Token) (i : Nat) (k : TokenKind) : List Token :=
  let t := buff.getD i default
  buff.set i ⟨t.value, k, t.details⟩

/-- The semantic kind a matched delimiter pair is rewritten to, by literal
value (the `match t.value()` of `Lexer::tidy`; other values are unreachable
there since stacked runs are `*`/`_`/`` ` `` runs of length at most 3). -/
def mark_kind_for (v : List Char) : TokenKind :=
  if v = ['*'] || v = ['_'] then .ItalicMark
  else if v = ['*', '*'] || v = ['_', '_'] then .BoldMark
  else if v = ['*', '*', '*'] || v = ['_', '_', '_'] then .ItalicBoldMark
  else if v = ['`'] || v = ['`', '`'] || v = ['`', '`', '`'] then .CodeMark
  else .Text

/-- The stack-matching pass of `Lexer::tidy`, iterating the indices of the
delimiter tokens; leftover stack entries are demoted to `Text` at the end. -/
def tidyLoop : List Token → List Nat → List Nat → List Token
  | buff, stack, [] => stack.foldl (fun b i => setKind b i .Text) buff
  | buff, stack, ix :: rest =>
    let t := buff.getD ix default
    if t.kind = .Star ∨ t.kind = .UnderLine ∨ t.kind = .BackTick then
      let pr := popRange buff t stack
      match pr.1 with
      | [] =>
        if t.value.length < 4 then tidyLoop buff (ix :: stack) rest
        else tidyLoop (setKind buff ix .Text) stack rest
      | m :: above =>
        let k := mark_kind_for t.value
        let buff := setKind (setKind buff m k) ix k
        let buff := above.foldl (fun b i => setKind b i .Text) buff
        tidyLoop buff pr.2 rest
    else tidyLoop buff stack rest

/-- `Lexer::tidy`: run-length normalization for `Star` and `UnderLine`, then
the stack-matching pass. -/
def tidy (buff : List Token) : List Token :=
  let b := tidy_continuous_mark .UnderLine (tidy_continuous_mark .Star buff)
  tidyLoop b [] (List.range b.length)

/-- `Lexer::split_inline`: run the automaton, append the `LineBreak` token
when the raw content ends in a hard break, then tidy. -/
def split_inline (V : Validators) (content : List Char) : List Token :=
  let buff := inlineLoop V content content.enum .Normal 0 []
  let buff := if has_br content then buff ++ [⟨['<', 'b', 'r', '>'], .LineBreak, none⟩] else buff
  tidy buff

/-- `State` from `src/lexer.rs` (the block-classifier state). -/
inductive LState where
  | Begin
  | Mark (b : Nat)
  | Inline (b : Nat)
  | Finished
  deriving DecidableEq, Repr

/-- The `for` loop of `Lexer::split`: skip leading whitespace (emitting
`WhiteSpace` / `BlankLine`), classify the first word, stop on `Inline` or
`Finished`. -/
def splitLoop (line : List Char) :
    List (Nat × Char) → LState → List Token → LState × List Token
  | [], st, buff => (st, buff)
  | (ix, curr) :: rest, st, buff =>
    match st with
    | .Begin =>
      if !(isWhitespaceChar curr) then
        let s := lslice line 0 ix
        let buff := if s.isEmpty then buff else buff ++ [⟨s, .WhiteSpace, none⟩]
        splitLoop line rest (.Mark ix) buff
      else if curr = '\n' then
        splitLoop line rest .Begin (buff ++ [⟨lslice line 0 ix, .BlankLine, none⟩])
      else splitLoop line rest .Begin buff
    | .Mark bg =>
      if isWhitespaceChar curr then
        match extract_mark line (lslice line bg ix) with
        | some m =>
          let st' : LState :=
            if m.kind = .CodeBlockMark then .Inline (bg + 3)
            else if m.kind = .DividingMark then .Finished
            else .Inline (ix + 1)
          splitLoop line rest st' (buff ++ [m])
        | none => splitLoop line rest (.Inline bg) buff
      else splitLoop line rest (.Mark bg) buff
    | .Inline _ => (st, buff)
    | .Finished => (st, buff)

/-- `Lexer::split`: the classifier loop, then (when inline tokenizing is
reached) the inline tokens with empty values filtered out. -/
def split (V : Validators) (line : List Char) : List Token :=
  let r := splitLoop line line.enum .Begin []
  match r.1 with
  | .Inline bg => r.2 ++ (split_inline V (line.drop bg)).filter (fun t => !t.value.isEmpty)
  | _ => r.2

/-- Modelled from the spec: a minimal conformant syntactic absolute-URL
validator (the `url` crate is an external delegated capability; §6 requires
only an RFC 3986-class boolean check, and §9 allows a hand-rolled RFC-subset
implementation): a nonempty alphabetic-led scheme, a `':'`, a nonempty
remainder, and no whitespace anywhere. -/
def specIsUrl (s : List Char) : Bool :=
  let scheme := s.takeWhile (fun c => c ≠ ':')
  match s.dropWhile (fun c => c ≠ ':') with
  | _ :: rest =>
    (!scheme.isEmpty) && scheme.all (fun c => c.isAlpha || c.isDigit || c = '+' || c = '-' || c = '.') &&
      (match scheme with
       | c :: _ => c.isAlpha
       | [] => false) &&
      (!rest.isEmpty) && s.all (fun c => !(isWhitespaceChar c))
  | [] => false

/-- Modelled from the spec: a minimal conformant syntactic email validator
(the `email_address` crate is an external delegated capability per §6):
exactly one `'@'`, nonempty local part and domain, a dot in the domain, and
no whitespace anywhere. -/
def specIsEmail (s : List Char) : Bool :=
  let lp := s.takeWhile (fun c => c ≠ '@')
  match s.dropWhile (fun c => c ≠ '@') with
  | _ :: dom =>
    (!lp.isEmpty) && (!dom.isEmpty) && (s.count '@' == 1) && dom.contains '.' &&
      s.all (fun c => !(isWhitespaceChar c))
  | [] => false

/-- The concrete validator instance used for evaluating the lexer on literal
inputs. -/
def specValidators : Validators := ⟨specIsUrl, specIsEmail⟩

/-- The lexer on one line of text, with the modelled validators plugged in. -/
def lexLine (s : String) : List Token := split specValidators s.toList

/-- The link-family kinds accepted by `Token::as_generic_link`. -/
def isLinkFamily (k : TokenKind) : Bool :=
  k = .Link || k = .Image || k = .RefLink || k = .RefLinkDef || k = .QuickLink

/-- `GenericLinkToken`: the read-only accessor wrapper around a token. -/
structure GenericLinkToken where
  tok : Token
  deriving DecidableEq, Repr

/-- `GenericLinkToken::name`. -/
def GenericLinkToken.name (g : GenericLinkToken) : Option (List Char) := g.tok.attr .name

/-- `GenericLinkToken::location`. -/
def GenericLinkToken.location (g : GenericLinkToken) : Option (List Char) := g.tok.attr .location

/-- `GenericLinkToken::title`. -/
def GenericLinkToken.title (g : GenericLinkToken) : Option (List Char) := g.tok.attr .title

/-- `Token::as_generic_link`, with the `panic!("token is not a generic link")`
on non-link-family kinds embedded as `none`. -/
def as_generic_link (t : Token) : Option GenericLinkToken :=
  if !(isLinkFamily t.kind) then none else some ⟨t⟩

/-! ## Helper lemmas about slices, trimming and the classifier loop -/

theorem lslice_append (pre mid post : List Char) :
    lslice (pre ++ (mid ++ post)) pre.length (pre.length + mid.length) = mid := by
  unfold lslice
  rw [show pre.length + mid.length = (pre ++ mid).length by simp, ← List.append_assoc,
    List.take_left, List.drop_left]

theorem lslice_prefix (mid post : List Char) : lslice (mid ++ post) 0 mid.length = mid := by
  have h := lslice_append [] mid post
  simpa using h

theorem dropWhile_append_all {p : Char → Bool} {a : List Char} (l : List Char)
    (h : ∀ c ∈ a, p c = true) : (a ++ l).dropWhile p = l.dropWhile p := by
  induction a with
  | nil => simp
  | cons c cs ih =>
    simp only [List.cons_append, List.dropWhile_cons, h c (by simp)]
    exact ih (fun x hx => h x (by simp [hx]))

theorem dropWhile_eq_self_of {p : Char → Bool} {l : List Char}
    (h : ∀ c ∈ l, p c = false) : l.dropWhile p = l := by
  cases l with
  | nil => rfl
  | cons c cs => simp [List.dropWhile_cons, h c (by simp)]

theorem dropWhile_head_false {p : Char → Bool} {l : List Char} {x : Char} {xs : List Char}
    (h : l.dropWhile p = x :: xs) : p x = false := by
  induction l with
  | nil => simp at h
  | cons c cs ih =>
    rw [List.dropWhile_cons] at h
    split at h
    · exact ih h
    · cases h
      exact Bool.eq_false_iff.mpr ‹¬_›

theorem trimChars_eq_self {b : List Char} (hb : ∀ c ∈ b, isWhitespaceChar c = false) :
    trimChars b = b := by
  unfold trimChars trimStart trimEnd
  rw [dropWhile_eq_self_of hb, dropWhile_eq_self_of (fun c hc => hb c (by simpa using hc))]
  simp

theorem trimChars_all_ws {l : List Char} (h : ∀ c ∈ l, isWhitespaceChar c = true) :
    trimChars l = [] := by
  unfold trimChars trimStart trimEnd
  rw [List.dropWhile_eq_nil_iff.mpr h]
  simp

theorem trimChars_sandwich {a b d : List Char}
    (ha : ∀ c ∈ a, isWhitespaceChar c = true) (hd : ∀ c ∈ d, isWhitespaceChar c = true)
    (hbne : b ≠ []) (hb : ∀ c ∈ b, isWhitespaceChar c = false) :
    trimChars (a ++ b ++ d) = b := by
  unfold trimChars trimStart trimEnd
  rw [List.append_assoc, dropWhile_append_all (b ++ d) ha]
  obtain ⟨x, bs, rfl⟩ : ∃ x bs, b = x :: bs := by
    cases b with
    | nil => exact absurd rfl hbne
    | cons x bs => exact ⟨x, bs, rfl⟩
  have h1 : List.dropWhile (fun c => isWhitespaceChar c) ((x :: bs) ++ d) = x :: (bs ++ d) := by
    rw [List.cons_append, List.dropWhile_cons]
    simp [hb x (by simp)]
  rw [h1, List.reverse_cons, List.reverse_append, List.append_assoc,
    dropWhile_append_all _ (fun c hc => hd c (by simpa using hc)),
    dropWhile_eq_self_of (fun c hc => hb c (by simp at hc ⊢; tauto))]
  simp

theorem trimEnd_append_gtnl (Y : List Char) :
    trimEnd (Y ++ ['>', '\n']) = Y ++ ['>'] := by
  unfold trimEnd
  rw [List.reverse_append]
  simp [List.dropWhile_cons, isWhitespaceChar]

theorem snd_mem_enumFrom {α : Type} : ∀ (l : List α) (i : Nat) (p : Nat × α),
    p ∈ List.enumFrom i l → p.2 ∈ l := by
  intro l
  induction l with
  | nil => intro i p hp; simp at hp
  | cons x xs ih =>
    intro i p hp
    rw [List.enumFrom_cons, List.mem_cons] at hp
    rcases hp with h | h
    · simp [h]
    · simpa using Or.inr (ih (i + 1) p h)

/-! ### splitLoop lemmas -/

theorem splitLoop_finished (line : List Char) (pairs : List (Nat × Char)) (buff : List Token) :
    splitLoop line pairs .Finished buff = (.Finished, buff) := by
  cases pairs with
  | nil => rfl
  | cons p rest => rfl

theorem splitLoop_inline (line : List Char) (pairs : List (Nat × Char)) (bg : Nat)
    (buff : List Token) : splitLoop line pairs (.Inline bg) buff = (.Inline bg, buff) := by
  cases pairs with
  | nil => rfl
  | cons p rest => rfl

theorem splitLoop_begin_nonws (line : List Char) (ix : Nat) (curr : Char)
    (rest : List (Nat × Char)) (buff : List Token) (h : isWhitespaceChar curr = false) :
    splitLoop line ((ix, curr) :: rest) .Begin buff =
      splitLoop line rest (.Mark ix)
        (if (lslice line 0 ix).isEmpty = true then buff
         else buff ++ [⟨lslice line 0 ix, .WhiteSpace, none⟩]) := by
  simp [splitLoop, h]

theorem splitLoop_begin_nl (line : List Char) (ix : Nat)
    (rest : List (Nat × Char)) (buff : List Token) :
    splitLoop line ((ix, '\n') :: rest) .Begin buff =
      splitLoop line rest .Begin (buff ++ [⟨lslice line 0 ix, .BlankLine, none⟩]) := by
  simp [splitLoop, (by decide : isWhitespaceChar '\n' = true)]

theorem splitLoop_begin_ws (line : List Char) (ix : Nat) (curr : Char)
    (rest : List (Nat × Char)) (buff : List Token)
    (h1 : isWhitespaceChar curr = true) (h2 : curr ≠ '\n') :
    splitLoop line ((ix, curr) :: rest) .Begin buff = splitLoop line rest .Begin buff := by
  simp [splitLoop, h1, h2]

theorem splitLoop_mark_none (line : List Char) (ix bg : Nat) (curr : Char)
    (rest : List (Nat × Char)) (buff : List Token)
    (h1 : isWhitespaceChar curr = true) (hm : extract_mark line (lslice line bg ix) = none) :
    splitLoop line ((ix, curr) :: rest) (.Mark bg) buff =
      splitLoop line rest (.Inline bg) buff := by
  simp [splitLoop, h1, hm]

theorem splitLoop_mark_some (line : List Char) (ix bg : Nat) (curr : Char)
    (rest : List (Nat × Char)) (buff : List Token) (m : Token)
    (h1 : isWhitespaceChar curr = true) (hm : extract_mark line (lslice line bg ix) = some m) :
    splitLoop line ((ix, curr) :: rest) (.Mark bg) buff =
      splitLoop line rest
        (if m.kind = .CodeBlockMark then .Inline (bg + 3)
         else if m.kind = .DividingMark then .Finished
         else .Inline (ix + 1)) (buff ++ [m]) := by
  simp [splitLoop, h1, hm]

theorem splitLoop_mark_nonws (line : List Char) (ix bg : Nat) (curr : Char)
    (rest : List (Nat × Char)) (buff : List Token) (h1 : isWhitespaceChar curr = false) :
    splitLoop line ((ix, curr) :: rest) (.Mark bg) buff =
      splitLoop line rest (.Mark bg) buff := by
  simp [splitLoop, h1]

theorem splitLoop_append (line : List Char) (pairs : List (Nat × Char)) :
    ∀ (st : LState) (b1 b2 : List Token),
    splitLoop line pairs st (b1 ++ b2) =
      ((splitLoop line pairs st b2).1, b1 ++ (splitLoop line pairs st b2).2) := by
  induction pairs with
  | nil => intro st b1 b2; simp [splitLoop]
  | cons p rest ih =>
    intro st b1 b2
    obtain ⟨ix, curr⟩ := p
    cases st with
    | Begin =>
      by_cases h1 : isWhitespaceChar curr
      · by_cases h2 : curr = '\n'
        · subst h2
          rw [splitLoop_begin_nl, splitLoop_begin_nl, List.append_assoc]
          exact ih .Begin b1 (b2 ++ [⟨lslice line 0 ix, .BlankLine, none⟩])
        · rw [splitLoop_begin_ws line ix curr rest _ h1 h2,
            splitLoop_begin_ws line ix curr rest b2 h1 h2]
          exact ih .Begin b1 b2
      · rw [splitLoop_begin_nonws line ix curr rest _ (Bool.eq_false_iff.mpr h1),
          splitLoop_begin_nonws line ix curr rest b2 (Bool.eq_false_iff.mpr h1)]
        by_cases hs : (lslice line 0 ix).isEmpty = true
        · rw [if_pos hs, if_pos hs]
          exact ih (.Mark ix) b1 b2
        · rw [if_neg hs, if_neg hs, List.append_assoc]
          exact ih (.Mark ix) b1 (b2 ++ [⟨lslice line 0 ix, .WhiteSpace, none⟩])
    | Mark bg =>
      by_cases h1 : isWhitespaceChar curr
      · cases hm : extract_mark line (lslice line bg ix) with
        | none =>
          rw [splitLoop_mark_none line ix bg curr rest _ h1 hm,
            splitLoop_mark_none line ix bg curr rest b2 h1 hm]
          exact ih (.Inline bg) b1 b2
        | some m =>
          rw [splitLoop_mark_some line ix bg curr rest _ m h1 hm,
            splitLoop_mark_some line ix bg curr rest b2 m h1 hm, List.append_assoc]
          exact ih _ b1 (b2 ++ [m])
      · rw [splitLoop_mark_nonws line ix bg curr rest _ (Bool.eq_false_iff.mpr h1),
          splitLoop_mark_nonws line ix bg curr rest b2 (Bool.eq_false_iff.mpr h1)]
        exact ih (.Mark bg) b1 b2
    | Inline bg => simp [splitLoop]
    | Finished => simp [splitLoop]

theorem splitLoop_buffer (line : List Char) (pairs : List (Nat × Char)) (st : LState)
    (buff : List Token) :
    splitLoop line pairs st buff =
      ((splitLoop line pairs st []).1, buff ++ (splitLoop line pairs st []).2) := by
  have h := splitLoop_append line pairs st buff []
  simpa using h

theorem splitLoop_begin_skip (line : List Char) (ws : List Char) :
    ∀ (i : Nat) (rest : List (Nat × Char)) (buff : List Token),
    (∀ c ∈ ws, isWhitespaceChar c = true ∧ c ≠ '\n') →
    splitLoop line (List.enumFrom i ws ++ rest) .Begin buff = splitLoop line rest .Begin buff := by
  induction ws with
  | nil => intro i rest buff _; simp
  | cons c cs ih =>
    intro i rest buff h
    obtain ⟨h1, h2⟩ := h c (by simp)
    rw [List.enumFrom_cons, List.cons_append, splitLoop_begin_ws line i c _ buff h1 h2]
    exact ih (i + 1) rest buff (fun x hx => h x (by simp [hx]))

theorem splitLoop_mark_skip (line : List Char) (word : List Char) :
    ∀ (i bg : Nat) (rest : List (Nat × Char)) (buff : List Token),
    (∀ c ∈ word, isWhitespaceChar c = false) →
    splitLoop line (List.enumFrom i word ++ rest) (.Mark bg) buff =
      splitLoop line rest (.Mark bg) buff := by
  induction word with
  | nil => intro i bg rest buff _; simp
  | cons c cs ih =>
    intro i bg rest buff h
    rw [List.enumFrom_cons, List.cons_append, splitLoop_mark_nonws line i bg c _ buff (h c (by simp))]
    exact ih (i + 1) bg rest buff (fun x hx => h x (by simp [hx]))

/-! ### extract_mark lemmas -/

theorem isOrderedWord_head_false {h : Char} (t : List Char) (hd : digit19 h = false) :
    isOrderedWord (h :: t) = false := by
  rcases t with _ | ⟨a, _ | ⟨b, _ | ⟨c, _ | ⟨d, e⟩⟩⟩⟩ <;> simp [isOrderedWord, hd]

/-- The classifier finds no mark when the first word starts with a character
outside every mark alphabet. -/
theorem extract_mark_none_of_head (line : List Char) (h : Char) (t : List Char)
    (hd : digit19 h = false)
    (hne : h ≠ '#' ∧ h ≠ '>' ∧ h ≠ '`' ∧ h ≠ '+' ∧ h ≠ '*' ∧ h ≠ '-' ∧ h ≠ '_') :
    extract_mark line (h :: t) = none := by
  obtain ⟨e1, e2, e3, e4, e5, e6, e7⟩ := hne
  unfold extract_mark
  rw [isOrderedWord_head_false t hd]
  simp [e1, e2, e3, e4, e5, e6, e7, List.take_cons]

/-- The classifier emits the dividing mark on a first word made of one
repeated character from `{*, -, _}` when the whole-line dividing test holds. -/
theorem extract_mark_dividing (line : List Char) (c : Char) (w2 : List Char)
    (hc : c = '*' ∨ c = '-' ∨ c = '_') (hall : ∀ x ∈ w2, x = c)
    (hdiv : is_dividing line = true) :
    extract_mark line (c :: w2) = some ⟨trimEndNewlines line, .DividingMark, none⟩ := by
  have hord : isOrderedWord (c :: w2) = false := by
    apply isOrderedWord_head_false
    rcases hc with rfl | rfl | rfl <;> decide
  unfold extract_mark
  rw [hord]
  cases w2 with
  | nil => rcases hc with rfl | rfl | rfl <;> simp [hdiv]
  | cons x xs =>
    have hx := hall x (by simp)
    subst hx
    rcases hc with rfl | rfl | rfl <;> simp [hdiv]

theorem trimEndNewlines_append (X : List Char) (hX : ∀ x ∈ X, x ≠ '\n') :
    trimEndNewlines (X ++ ['\n']) = X := by
  unfold trimEndNewlines
  rw [List.reverse_append, show (['\n'] : List Char).reverse = ['\n'] from rfl,
    List.cons_append, List.dropWhile_cons]
  simp only [List.nil_append, decide_eq_true_eq, if_pos rfl]
  rw [dropWhile_eq_self_of (fun x hx => by
    simpa using hX x (by simpa using hx))]
  simp

/-- Stepping `split` for a line whose first character opens no block mark:
the whole line goes to the inline automaton. -/
theorem split_no_mark (V : Validators) (h : Char) (t : List Char)
    (h1 : isWhitespaceChar h = false) (hd : digit19 h = false)
    (hne : h ≠ '#' ∧ h ≠ '>' ∧ h ≠ '`' ∧ h ≠ '+' ∧ h ≠ '*' ∧ h ≠ '-' ∧ h ≠ '_')
    (hnl : '\n' ∈ t) :
    split V (h :: t) = (split_inline V (h :: t)).filter (fun tk => !tk.value.isEmpty) := by
  have hdecomp : t = t.takeWhile (fun c => !(isWhitespaceChar c)) ++
      t.dropWhile (fun c => !(isWhitespaceChar c)) :=
    (List.takeWhile_append_dropWhile _ _).symm
  obtain ⟨dch, dtl, hdtl⟩ : ∃ dch dtl,
      t.dropWhile (fun c => !(isWhitespaceChar c)) = dch :: dtl := by
    cases hcase : t.dropWhile (fun c => !(isWhitespaceChar c)) with
    | nil =>
      exfalso
      have h2 := List.dropWhile_eq_nil_iff.mp hcase '\n' hnl
      simp [isWhitespaceChar] at h2
    | cons a b => exact ⟨a, b, rfl⟩
  have hdws : isWhitespaceChar dch = true := by
    have h3 := dropWhile_head_false hdtl
    simpa using h3
  have htake : t.take (t.takeWhile (fun c => !(isWhitespaceChar c))).length =
      t.takeWhile (fun c => !(isWhitespaceChar c)) :=
    (List.prefix_iff_eq_take.mp (List.takeWhile_prefix _)).symm
  have hsl : lslice (h :: t) 0 (1 + (t.takeWhile (fun c => !(isWhitespaceChar c))).length) =
      h :: t.takeWhile (fun c => !(isWhitespaceChar c)) := by
    unfold lslice
    rw [show 1 + (t.takeWhile (fun c => !(isWhitespaceChar c))).length =
      (t.takeWhile (fun c => !(isWhitespaceChar c))).length + 1 from by omega]
    rw [List.take_succ_cons, List.drop_zero, htake]
  have hmark : extract_mark (h :: t)
      (lslice (h :: t) 0 (1 + (t.takeWhile (fun c => !(isWhitespaceChar c))).length)) = none := by
    rw [hsl]
    exact extract_mark_none_of_head _ h _ hd hne
  have hsplit : splitLoop (h :: t) ((h :: t).enum) .Begin [] = (.Inline 0, []) := by
    have he : (h :: t).enum = (0, h) :: List.enumFrom 1 t := by
      simp [List.enum, List.enumFrom_cons]
    rw [he, splitLoop_begin_nonws (h :: t) 0 h _ [] h1,
      if_pos (by simp [lslice])]
    have henum : List.enumFrom 1 t =
        List.enumFrom 1 (t.takeWhile (fun c => !(isWhitespaceChar c))) ++
          List.enumFrom (1 + (t.takeWhile (fun c => !(isWhitespaceChar c))).length)
            (dch :: dtl) := by
      conv_lhs => rw [hdecomp, hdtl]
      rw [List.enumFrom_append]
    rw [henum, splitLoop_mark_skip (h :: t) _ 1 0 _ []
      (fun x hx => by simpa using List.mem_takeWhile_imp hx),
      List.enumFrom_cons, splitLoop_mark_none (h :: t) _ 0 dch _ [] hdws hmark]
    exact splitLoop_inline _ _ 0 []
  unfold split
  rw [hsplit]
  simp

/-! ### supporting lemmas for the dividing-line property -/

theorem filter_nonws_body (c : Char) (hcws : isWhitespaceChar c = false) :
    ∀ (body : List Char), (∀ x ∈ body, x = c ∨ isWhitespaceChar x = true) →
    body.filter (fun x => !(isWhitespaceChar x)) = List.replicate (body.count c) c := by
  intro body
  induction body with
  | nil => simp
  | cons x xs ih =>
    intro hb
    rcases hb x (by simp) with rfl | hws
    · rw [List.filter_cons]
      simp only [hcws, Bool.not_false, if_pos rfl]
      rw [ih (fun y hy => hb y (by simp [hy])), List.count_cons]
      simp [List.replicate_succ]
    · have hxc : x ≠ c := by
        intro heq
        rw [heq, hcws] at hws
        exact absurd hws (by simp)
      rw [List.filter_cons]
      simp only [hws, Bool.not_true, Bool.false_eq_true, if_false]
      rw [ih (fun y hy => hb y (by simp [hy])), List.count_cons]
      simp [hxc]

theorem dedup_replicate_pos (c : Char) : ∀ n, 0 < n → (List.replicate n c).dedup = [c] := by
  intro n
  induction n with
  | zero => intro h; omega
  | succ k ih =>
    intro _
    cases k with
    | zero => simp
    | succ m =>
      rw [List.replicate_succ, List.dedup_cons_of_mem (by simp [List.mem_replicate])]
      exact ih (by omega)

/-- The whole-line dividing test succeeds on a line whose non-whitespace
content is one character from `{*, -, _}` repeated at least three times. -/
theorem is_dividing_true (ws : List Char) (c : Char) (body : List Char)
    (hc : c = '*' ∨ c = '-' ∨ c = '_')
    (hws : ∀ x ∈ ws, isWhitespaceChar x = true)
    (hbody : ∀ x ∈ body, x = c ∨ isWhitespaceChar x = true)
    (hcnt : 2 ≤ body.count c) :
    is_dividing (ws ++ (c :: body) ++ ['\n']) = true := by
  have hcws : isWhitespaceChar c = false := by
    rcases hc with rfl | rfl | rfl <;> decide
  have hfil : (ws ++ (c :: body) ++ ['\n']).filter (fun x => !(isWhitespaceChar x)) =
      List.replicate (body.count c + 1) c := by
    rw [List.filter_append, List.filter_append,
      List.filter_eq_nil_iff.mpr (fun a ha => by simp [hws a ha]), List.filter_cons]
    simp only [hcws, Bool.not_false, if_pos rfl]
    rw [filter_nonws_body c hcws body hbody]
    simp [List.replicate_succ, (by decide : isWhitespaceChar '\n' = true)]
  unfold is_dividing
  simp only [hfil]
  rw [dedup_replicate_pos c (body.count c + 1) (by omega)]
  rcases hc with rfl | rfl | rfl <;>
    simp [List.count_replicate] <;> omega

/-! ### tidy no-op lemmas -/

theorem tcmLoop_no_kind {kind : TokenKind} :
    ∀ (pts : List (Nat × Token)) (pre : Nat) (acc : List (Nat × Nat)),
    (∀ p ∈ pts, p.2.kind ≠ kind) → tcmLoop kind pts pre acc = acc := by
  intro pts
  induction pts with
  | nil => intro pre acc _; rfl
  | cons p rest ih =>
    intro pre acc h
    obtain ⟨ix, t⟩ := p
    have ht : t.kind ≠ kind := h (ix, t) (by simp)
    simp only [tcmLoop, if_neg ht]
    exact ih pre acc (fun q hq => h q (by simp [hq]))

theorem tidy_continuous_mark_no_kind {kind : TokenKind} {buff : List Token}
    (h : ∀ t ∈ buff, t.kind ≠ kind) : tidy_continuous_mark kind buff = buff := by
  unfold tidy_continuous_mark
  rw [tcmLoop_no_kind buff.enum 0 [] (fun p hp => h p.2 (snd_mem_enumFrom buff 0 p hp))]
  rfl

theorem tidyLoop_no_marks :
    ∀ (ixs : List Nat) (buff : List Token),
    (∀ ix ∈ ixs, ¬((buff.getD ix default).kind = .Star ∨
      (buff.getD ix default).kind = .UnderLine ∨ (buff.getD ix default).kind = .BackTick)) →
    tidyLoop buff [] ixs = buff := by
  intro ixs
  induction ixs with
  | nil => intro buff _; rfl
  | cons ix rest ih =>
    intro buff h
    have hx := h ix (by simp)
    simp only [tidyLoop]
    rw [if_neg (by simpa using hx)]
    exact ih buff (fun i hi => h i (by simp [hi]))

/-- `tidy` is the identity on a buffer without raw delimiter tokens. -/
theorem tidy_no_marks {buff : List Token}
    (h : ∀ t ∈ buff, t.kind ≠ .Star ∧ t.kind ≠ .UnderLine ∧ t.kind ≠ .BackTick) :
    tidy buff = buff := by
  unfold tidy
  rw [tidy_continuous_mark_no_kind (fun t ht => (h t ht).1),
    tidy_continuous_mark_no_kind (fun t ht => (h t ht).2.1)]
  apply tidyLoop_no_marks
  intro ix hix
  by_cases hlt : ix < buff.length
  · rw [List.getD_eq_getElem buff default hlt]
    have hm : buff[ix] ∈ buff := List.getElem_mem hlt
    rcases h _ hm with ⟨a, b, c⟩
    rintro (hk | hk | hk) <;> simp_all
  · rw [List.getD_eq_default buff default (by omega)]
    rintro (hk | hk | hk) <;> simp_all [default]


/-- A lone `Star` run is demoted to `Text` by the resolver: a run of length
at least 4 is demoted immediately on the no-match path, and a shorter run is
pushed and demoted when the scan ends with it still on the stack. -/
theorem tidy_single_star (n : Nat) (_h : 0 < n) :
    tidy [⟨List.replicate n '*', .Star, none⟩] = [⟨List.replicate n '*', .Text, none⟩] := by
  by_cases h4 : n < 4 <;>
    simp [tidy, tidy_continuous_mark, tcmLoop, applySplits, List.enum, List.enumFrom,
      tidyLoop, popRange, List.span_eq_take_drop, setKind, List.range_succ, h4]

/-! ## C1: emphasis resolution on the scenario line -/

/-- C1: lexing `"**1** ****2***\n"` yields exactly the claimed tokens; a
delimiter run of length at least 4 that finds no stack match is demoted to
`Text` without opening a span, and a run left on the stack at the end of the
scan is demoted to `Text`. -/
theorem C1_emphasis_resolution :
    lexLine "**1** ****2***\n" =
      [⟨['*', '*'], .BoldMark, none⟩, ⟨['1'], .Text, none⟩, ⟨['*', '*'], .BoldMark, none⟩,
       ⟨[' '], .Text, none⟩, ⟨['*', '*', '*', '*'], .Text, none⟩, ⟨['2'], .Text, none⟩,
       ⟨['*', '*', '*'], .Text, none⟩] ∧
    (∀ n, 4 ≤ n → tidy [⟨List.replicate n '*', .Star, none⟩] =
      [⟨List.replicate n '*', .Text, none⟩]) ∧
    (∀ n, 0 < n → n < 4 → tidy [⟨List.replicate n '*', .Star, none⟩] =
      [⟨List.replicate n '*', .Text, none⟩]) :=
  ⟨by decide,
   fun n hn => tidy_single_star n (by omega),
   fun n hn _ => tidy_single_star n hn⟩

theorem C1_witness :
    tidy [⟨List.replicate 4 '*', .Star, none⟩] = [⟨List.replicate 4 '*', .Text, none⟩] ∧
    tidy [⟨List.replicate 2 '*', .Star, none⟩] = [⟨List.replicate 2 '*', .Text, none⟩] :=
  ⟨C1_emphasis_resolution.2.1 4 (by decide),
   C1_emphasis_resolution.2.2 2 (by decide) (by decide)⟩

/-! ## C4: escaped punctuation -/

/-- C4 (amended): for every `X` in the reserved punctuation set, lexing the
line `\X` yields the literal `X` as `Text` (the backslash is dropped and `X`
opens no construct), and the scenario `"\\***rust***\n"` lexes as claimed;
the escape does not, however, suppress the end-of-line `<br>` trim. -/
theorem C4_escape_amended :
    (∀ x ∈ escapeChars, lexLine (String.mk ['\\', x, '\n']) = [⟨[x], .Text, none⟩]) ∧
    lexLine "\\***rust***\n" =
      [⟨['*'], .Text, none⟩, ⟨['*', '*'], .BoldMark, none⟩,
       ⟨['r', 'u', 's', 't'], .Text, none⟩, ⟨['*', '*'], .BoldMark, none⟩,
       ⟨['*'], .Text, none⟩] :=
  ⟨by decide, by decide⟩

theorem C4_witness : lexLine (String.mk ['\\', ':', '\n']) = [⟨[':'], .Text, none⟩] :=
  C4_escape_amended.1 ':' (by decide)

/-- C4 counterexample: the escaped `'<'` of `"\\<br>\n"` is not emitted as
literal `Text` — the flushed span is consumed by the trailing `<br>` trim and
the line yields only a `LineBreak` token. -/
theorem C4_counterexample :
    lexLine "\\<br>\n" = [⟨['<', 'b', 'r', '>'], .LineBreak, none⟩] := by decide

/-! ### inline-automaton helper lemmas -/

theorem lslice_self (l : List Char) (a : Nat) : lslice l a a = [] := by
  unfold lslice
  exact List.drop_eq_nil_of_le (List.length_take_le a l)

/-- Characters that close or restart nothing keep the link-name-open state. -/
theorem il_linkname_skip (V : Validators) (content : List Char) (nm : List Char) :
    ∀ (i b : Nat) (rest : List (Nat × Char)) (last : Nat) (buff : List Token),
    (∀ x ∈ nm, x ≠ '\n' ∧ x ≠ '\\' ∧ x ≠ ']' ∧ x ≠ '[') →
    inlineLoop V content (List.enumFrom i nm ++ rest) (.LinkNameBegin b) last buff =
      inlineLoop V content rest (.LinkNameBegin b) last buff := by
  induction nm with
  | nil => intro i b rest last buff _; simp
  | cons x xs ih =>
    intro i b rest last buff h
    obtain ⟨h1, h2, h3, h4⟩ := h x (by simp)
    rw [List.enumFrom_cons, List.cons_append]
    simp only [inlineLoop]
    rw [if_neg (by simp [h1]), if_neg (by simp [h2]), if_neg h3, if_neg h4]
    exact ih (i + 1) b rest last buff (fun y hy => h y (by simp [hy]))

theorem il_nl (V : Validators) (content : List Char) (ix : Nat) (rest : List (Nat × Char))
    (st : InlineState) (last : Nat) (buff : List Token) :
    inlineLoop V content ((ix, '\n') :: rest) st last buff =
      buff ++ textIf (trimEndMatchesBr (trimEnd (lslice content last ix))) := by
  simp [inlineLoop]

theorem il_normal_lbracket (V : Validators) (content : List Char) (ix : Nat)
    (rest : List (Nat × Char)) (last : Nat) (buff : List Token) :
    inlineLoop V content ((ix, '[') :: rest) .Normal last buff =
      inlineLoop V content rest (.LinkNameBegin ix) last buff := by
  simp [inlineLoop]

theorem il_normal_langle (V : Validators) (content : List Char) (ix : Nat)
    (rest : List (Nat × Char)) (last : Nat) (buff : List Token) :
    inlineLoop V content ((ix, '<') :: rest) .Normal last buff =
      inlineLoop V content rest (.QuickLink ix) last buff := by
  simp [inlineLoop]

theorem il_lnb_lbracket (V : Validators) (content : List Char) (ix b : Nat)
    (rest : List (Nat × Char)) (last : Nat) (buff : List Token) :
    inlineLoop V content ((ix, '[') :: rest) (.LinkNameBegin b) last buff =
      inlineLoop V content rest (.LinkNameBegin ix) last buff := by
  simp [inlineLoop]

theorem il_lnb_rbracket (V : Validators) (content : List Char) (ix b : Nat)
    (rest : List (Nat × Char)) (last : Nat) (buff : List Token) :
    inlineLoop V content ((ix, ']') :: rest) (.LinkNameBegin b) last buff =
      inlineLoop V content rest (.NameEnd none b ix) last buff := by
  simp [inlineLoop]

theorem il_nameend_lparen (V : Validators) (content : List Char) (ix : Nat)
    (b1 : Option Nat) (b2 b3 : Nat) (rest : List (Nat × Char)) (last : Nat)
    (buff : List Token) :
    inlineLoop V content ((ix, '(') :: rest) (.NameEnd b1 b2 b3) last buff =
      inlineLoop V content rest (.Location b1 b2 b3 ix) last buff := by
  simp [inlineLoop]

theorem il_location_rparen (V : Validators) (content : List Char) (ix : Nat)
    (b1 : Option Nat) (b2 b3 b4 : Nat) (rest : List (Nat × Char)) (last : Nat)
    (buff : List Token) :
    inlineLoop V content ((ix, ')') :: rest) (.Location b1 b2 b3 b4) last buff =
      inlineLoop V content rest .Normal (ix + 1)
        ((buff ++ textIf (lslice content last (b1.getD b2))) ++
          [split_generic_link_details (lslice content (b1.getD b2) (ix + 1))
            (lslice content (b2 + 1) b3) (lslice content (b4 + 1) ix)
            (if b1.isSome then .Image else .Link)]) := by
  simp [inlineLoop]

/-- `split_generic_link_details` on an empty parenthesized clause stores only
the (nonempty) name. -/
theorem sgld_link_empty_clause (s nm : List Char) (h : nm ≠ []) :
    split_generic_link_details s nm [] .Link = ⟨s, .Link, some [(.name, nm)]⟩ := by
  simp [split_generic_link_details, trimChars, trimStart, trimEnd, splitnTwo,
    insert_name, insert_location, insert_title, h, Token.insert, assocInsert]

theorem trimEnd_append_nonws_nl (Y : List Char) (c : Char)
    (hc : isWhitespaceChar c = false) : trimEnd (Y ++ [c, '\n']) = Y ++ [c] := by
  unfold trimEnd
  rw [show (Y ++ [c, '\n']).reverse = '\n' :: c :: Y.reverse from by simp,
    List.dropWhile_cons, List.dropWhile_cons]
  simp [hc, (by decide : isWhitespaceChar '\n' = true)]

theorem twosp_not_suffix (Y : List Char) (c : Char) (hc : c ≠ ' ') :
    ([' ', ' ', '\n'] : List Char).isSuffixOf (Y ++ [c, '\n']) = false := by
  rw [Bool.eq_false_iff]
  intro hsuf
  rw [List.isSuffixOf_iff_suffix] at hsuf
  obtain ⟨t, ht⟩ := hsuf
  have h2 := congrArg List.reverse ht
  simp only [List.reverse_append] at h2
  simp at h2
  exact hc h2.1.symm

theorem br_not_suffix (Y : List Char) (c : Char) (hc : c ≠ '>') :
    (['<', 'b', 'r', '>'] : List Char).isSuffixOf (Y ++ [c]) = false := by
  rw [Bool.eq_false_iff]
  intro hsuf
  rw [List.isSuffixOf_iff_suffix] at hsuf
  obtain ⟨t, ht⟩ := hsuf
  have h2 := congrArg List.reverse ht
  simp only [List.reverse_append] at h2
  simp at h2
  exact hc h2.1.symm

/-- A line ending in a non-whitespace character other than `' '`/`'>'` before
its newline carries no hard line break. -/
theorem has_br_false (Y : List Char) (c : Char) (h1 : c ≠ ' ') (h2 : c ≠ '>')
    (h3 : isWhitespaceChar c = false) : has_br (Y ++ [c, '\n']) = false := by
  unfold has_br
  rw [twosp_not_suffix Y c h1, trimEnd_append_nonws_nl Y c h3, br_not_suffix Y c h2]
  simp

/-! ## C5: nested brackets in name-open states -/

/-- C5 (amended): in the link-name-open state a nested `'['` restarts the
name span at the new bracket (innermost wins), but in the image-name-open
state a `'['` is kept as part of the name: `"![[a]()"` stores the name
`"[a"`, not `"a"`. -/
theorem C5_nested_bracket_amended (V : Validators) :
    (∀ nm : List Char, nm ≠ [] →
      (∀ x ∈ nm, x ≠ '\n' ∧ x ≠ '\\' ∧ x ≠ ']' ∧ x ≠ '[') →
      split_inline V ('[' :: '[' :: nm ++ [']', '(', ')', '\n']) =
        [⟨['['], .Text, none⟩, ⟨'[' :: nm ++ [']', '(', ')'], .Link, some [(.name, nm)]⟩]) ∧
    lexLine "![[a]()\n" =
      [⟨"![[a]()".toList, .Image, some [(.name, ['[', 'a'])]⟩] := by
  constructor
  · intro nm hne hctr
    have henum : ('[' :: '[' :: nm ++ [']', '(', ')', '\n']).enum =
        (0, '[') :: (1, '[') ::
          (List.enumFrom 2 nm ++ List.enumFrom (2 + nm.length) [']', '(', ')', '\n']) := by
      simp [List.enum, List.enumFrom_cons, List.enumFrom_append]
    have hA : lslice ('[' :: '[' :: nm ++ [']', '(', ')', '\n']) 0 1 = ['['] := by
      simpa using lslice_prefix ['['] ('[' :: nm ++ [']', '(', ')', '\n'])
    have hB : lslice ('[' :: '[' :: nm ++ [']', '(', ')', '\n']) 2 (2 + nm.length) = nm := by
      simpa using lslice_append ['[', '['] nm [']', '(', ')', '\n']
    have hD : lslice ('[' :: '[' :: nm ++ [']', '(', ')', '\n']) 1 (2 + nm.length + 1 + 1 + 1) =
        '[' :: nm ++ [']', '(', ')'] := by
      have e1 : '[' :: '[' :: nm ++ [']', '(', ')', '\n'] =
          ['['] ++ (('[' :: nm ++ [']', '(', ')']) ++ ['\n']) := by simp
      have e2 : 2 + nm.length + 1 + 1 + 1 = 1 + ('[' :: nm ++ [']', '(', ')']).length := by
        simp
        omega
      rw [e1, e2]
      simpa using lslice_append ['['] ('[' :: nm ++ [']', '(', ')']) ['\n']
    have hbr : has_br ('[' :: '[' :: nm ++ [']', '(', ')', '\n']) = false := by
      have e1 : '[' :: '[' :: nm ++ [']', '(', ')', '\n'] =
          ('[' :: '[' :: nm ++ [']', '(']) ++ [')', '\n'] := by simp
      rw [e1]
      exact has_br_false _ ')' (by decide) (by decide) (by decide)
    have hil : inlineLoop V ('[' :: '[' :: nm ++ [']', '(', ')', '\n'])
        (('[' :: '[' :: nm ++ [']', '(', ')', '\n']).enum) .Normal 0 [] =
        [⟨['['], .Text, none⟩, ⟨'[' :: nm ++ [']', '(', ')'], .Link, some [(.name, nm)]⟩] := by
      rw [henum, il_normal_lbracket, il_lnb_lbracket,
        il_linkname_skip V _ nm 2 1 _ 0 [] hctr]
      simp only [List.enumFrom_cons, List.enumFrom_nil]
      rw [il_lnb_rbracket, il_nameend_lparen, il_location_rparen, il_nl]
      simp only [Option.getD, Option.isSome, hA, hB]
      rw [hD]
      simp only [Bool.false_eq_true, if_false, lslice_self]
      rw [sgld_link_empty_clause _ nm hne]
      simp [textIf, trimEnd, trimEndMatchesBr, stripBrAux]
    unfold split_inline
    rw [hil, hbr]
    apply tidy_no_marks
    intro t ht
    rcases (by simpa using ht :
      t = (⟨['['], .Text, none⟩ : Token) ∨
      t = (⟨'[' :: nm ++ [']', '(', ')'], .Link, some [(.name, nm)]⟩ : Token)) with rfl | rfl <;>
      exact ⟨by simp, by simp, by simp⟩
  · decide

theorem C5_witness :
    split_inline specValidators ('[' :: '[' :: ['a'] ++ [']', '(', ')', '\n']) =
      [⟨['['], .Text, none⟩, ⟨'[' :: ['a'] ++ [']', '(', ')'], .Link, some [(.name, ['a'])]⟩] :=
  (C5_nested_bracket_amended specValidators).1 ['a'] (by decide) (by decide)

/-- C5 counterexample: in the image-name-open state the nested `'['` of
`"![[a]()\n"` does not restart the name span — the stored name is `"[a"`
(the span after the first `'['`), not `"a"` (the span after the innermost). -/
theorem C5_counterexample :
    lexLine "![[a]()\n" = [⟨"![[a]()".toList, .Image, some [(.name, ['[', 'a'])]⟩] ∧
    Token.attr ⟨"![[a]()".toList, .Image, some [(.name, ['[', 'a'])]⟩ .name ≠ some ['a'] :=
  ⟨by decide, by decide⟩

/-! ## C7: the location/title clause -/

theorem takeWhile_append_all {p : Char → Bool} {a : List Char} (l : List Char)
    (h : ∀ c ∈ a, p c = true) : (a ++ l).takeWhile p = a ++ l.takeWhile p := by
  induction a with
  | nil => simp
  | cons c cs ih =>
    simp only [List.cons_append, List.takeWhile_cons, h c (by simp)]
    rw [ih (fun x hx => h x (by simp [hx]))]
    simp

theorem splitnTwo_nosep (s : List Char) (h : ∀ x ∈ s, x ≠ ' ' ∧ x ≠ '\t') :
    splitnTwo s = [s] := by
  simp only [splitnTwo]
  rw [List.dropWhile_eq_nil_iff.mpr (fun x hx => by simp [(h x hx).1, (h x hx).2])]

theorem splitnTwo_split (a b : List Char) (sp : Char) (hsp : sp = ' ' ∨ sp = '\t')
    (ha : ∀ x ∈ a, x ≠ ' ' ∧ x ≠ '\t') :
    splitnTwo (a ++ sp :: b) = [a, b] := by
  have hdw : (a ++ sp :: b).dropWhile (fun c => !(decide (c = ' ') || decide (c = '\t'))) =
      sp :: b := by
    rw [dropWhile_append_all (sp :: b) (fun x hx => by simp [(ha x hx).1, (ha x hx).2]),
      List.dropWhile_cons]
    rcases hsp with rfl | rfl <;> simp
  have htw : (a ++ sp :: b).takeWhile (fun c => !(decide (c = ' ') || decide (c = '\t'))) =
      a := by
    rw [takeWhile_append_all (sp :: b) (fun x hx => by simp [(ha x hx).1, (ha x hx).2]),
      List.takeWhile_cons]
    rcases hsp with rfl | rfl <;> simp
  simp only [splitnTwo, hdw, htw]

theorem is_quoted_string_ne_nil {b : List Char} (h : is_quoted_string b = true) : b ≠ [] := by
  intro heq
  subst heq
  simp [is_quoted_string] at h

theorem assocGet_insert (m : List (AttrKey × List Char)) (k : AttrKey) (v : List Char)
    (k' : AttrKey) :
    assocGet (assocInsert m k v) k' = if k' = k then some v else assocGet m k' := by
  induction m with
  | nil =>
    by_cases h : k' = k
    · subst h
      simp [assocInsert, assocGet]
    · simp [assocInsert, assocGet, h, Ne.symm h]
  | cons p rest ih =>
    obtain ⟨k1, v1⟩ := p
    by_cases h1 : k1 = k
    · subst h1
      by_cases h : k' = k1
      · subst h
        simp [assocInsert, assocGet]
      · simp [assocInsert, assocGet, h, Ne.symm h]
    · by_cases h : k' = k1
      · subst h
        simp [assocInsert, assocGet, h1, Ne.symm h1]
      · simp [assocInsert, assocGet, h1, h, Ne.symm h, ih]

theorem attr_insert (t : Token) (k : AttrKey) (v : List Char) (k' : AttrKey) :
    (t.insert k v).attr k' = if k' = k then some v else t.attr k' := by
  obtain ⟨tv, tk, td⟩ := t
  cases td with
  | none =>
    show assocGet (assocInsert [] k v) k' = _
    rw [assocGet_insert]
    rfl
  | some m =>
    show assocGet (assocInsert m k v) k' = _
    rw [assocGet_insert]
    rfl

/-- C7 (amended): the trailing clause is split at the first space or tab
character (not the first run): with no separator the trimmed clause is the
location and there is no title; with a separator, an invalidly quoted second
field degrades the whole construct to a plain `Text` token with no
attributes, and a validly quoted one is stored as the title with its quote
characters stripped. -/
theorem C7_title_clause_amended (s s1 s2 : List Char) (kind : TokenKind)
    (hk : kind = .Image ∨ kind = .Link) :
    ((∀ x ∈ trimChars s2, x ≠ ' ' ∧ x ≠ '\t') →
      (split_generic_link_details s s1 s2 kind).kind = kind ∧
      (split_generic_link_details s s1 s2 kind).value = s ∧
      (split_generic_link_details s s1 s2 kind).attr .location =
        (if trimChars s2 = [] then none else some (trimChars s2)) ∧
      (split_generic_link_details s s1 s2 kind).attr .title = none) ∧
    (∀ a b : List Char, ∀ sp : Char, trimChars s2 = a ++ sp :: b →
      (sp = ' ' ∨ sp = '\t') → (∀ x ∈ a, x ≠ ' ' ∧ x ≠ '\t') →
      is_quoted_string b = false →
      split_generic_link_details s s1 s2 kind = ⟨s, .Text, none⟩) ∧
    (∀ a b : List Char, ∀ sp : Char, trimChars s2 = a ++ sp :: b →
      (sp = ' ' ∨ sp = '\t') → (∀ x ∈ a, x ≠ ' ' ∧ x ≠ '\t') →
      is_quoted_string b = true →
      (split_generic_link_details s s1 s2 kind).kind = kind ∧
      (split_generic_link_details s s1 s2 kind).value = s ∧
      (split_generic_link_details s s1 s2 kind).attr .location =
        (if a = [] then none else some a) ∧
      (split_generic_link_details s s1 s2 kind).attr .title =
        some (stripQuotes b)) := by
  refine ⟨?_, ?_, ?_⟩
  · intro hns
    simp only [split_generic_link_details]
    rw [splitnTwo_nosep _ hns]
    rcases hk with rfl | rfl <;>
      (by_cases h1 : s1 = [] <;> by_cases h2 : trimChars s2 = [] <;>
        simp [insert_name, insert_location, insert_title, h1, h2, attr_insert,
          Token.insert, Token.attr, assocGet])
  · intro a b sp hsplit hsp ha hq
    simp only [split_generic_link_details]
    rw [hsplit, splitnTwo_split a b sp hsp ha]
    rcases hk with rfl | rfl <;> simp [hq]
  · intro a b sp hsplit hsp ha hq
    have hbne : b ≠ [] := is_quoted_string_ne_nil hq
    simp only [split_generic_link_details]
    rw [hsplit, splitnTwo_split a b sp hsp ha]
    rcases hk with rfl | rfl <;>
      (by_cases h1 : s1 = [] <;> by_cases h2 : a = [] <;>
        simp [insert_name, insert_location, insert_title, h1, h2, hq, hbne, attr_insert,
          Token.insert, Token.attr, assocGet])

theorem C7_witness :
    (split_generic_link_details "[n](b 't')".toList "n".toList "b 't'".toList .Link).kind =
      .Link ∧
    (split_generic_link_details "[n](b 't')".toList "n".toList "b 't'".toList .Link).attr
      .location = some "b".toList ∧
    (split_generic_link_details "[n](b 't')".toList "n".toList "b 't'".toList .Link).attr
      .title = some "t".toList := by
  have h := (C7_title_clause_amended "[n](b 't')".toList "n".toList "b 't'".toList .Link
    (Or.inr rfl)).2.2 "b".toList "'t'".toList ' ' (by decide) (by decide) (by decide) (by decide)
  refine ⟨h.1, ?_, ?_⟩
  · rw [h.2.2.1]
    decide
  · rw [h.2.2.2]
    decide

/-- C7 counterexample: the clause is split at the first space character, not
the first run — two adjacent spaces before a correctly quoted title leave a
leading space on the second field, so the construct degrades to `Text`
instead of producing a link with that title. -/
theorem C7_counterexample :
    lexLine "[a](b  \"t\")\n" = [⟨"[a](b  \"t\")".toList, .Text, none⟩] := by decide

/-! ## C6: autolinks -/

theorem lslice_cons_append (x : Char) (u y : List Char) :
    lslice (x :: (u ++ y)) 1 (1 + u.length) = u := by
  simpa using lslice_append [x] u y

theorem trimEnd_append_nonws (Y : List Char) (c : Char)
    (hc : isWhitespaceChar c = false) : trimEnd (Y ++ [c]) = Y ++ [c] := by
  unfold trimEnd
  rw [show (Y ++ [c]).reverse = c :: Y.reverse from by simp, List.dropWhile_cons]
  simp [hc]

theorem trimEndMatchesBr_no_br (X : List Char)
    (h : (['<', 'b', 'r', '>'] : List Char).isSuffixOf X = false) :
    trimEndMatchesBr X = X := by
  unfold trimEndMatchesBr
  cases hlen : X.length with
  | zero => rfl
  | succ m => simp [stripBrAux, h]

theorem has_br_false_gt (Y : List Char)
    (h : (['<', 'b', 'r', '>'] : List Char).isSuffixOf (Y ++ ['>']) = false) :
    has_br (Y ++ ['>', '\n']) = false := by
  unfold has_br
  rw [twosp_not_suffix Y '>' (by decide), trimEnd_append_nonws_nl Y '>' (by decide), h]
  simp

/-- `split_generic_link_details` on a whitespace-free nonempty autolink body
stores it as both name and location, with no title. -/
theorem sgld_quicklink (s core : List Char) (hne : core ≠ [])
    (hcore : ∀ x ∈ core, isWhitespaceChar x = false) :
    split_generic_link_details s core core .QuickLink =
      ⟨s, .QuickLink, some [(.name, core), (.location, core)]⟩ := by
  have hsep : ∀ x ∈ core, x ≠ ' ' ∧ x ≠ '\t' := by
    intro x hx
    constructor <;> intro heq <;> rw [heq] at hx <;>
      exact absurd (hcore _ hx) (by decide)
  simp only [split_generic_link_details]
  rw [trimChars_eq_self hcore, splitnTwo_nosep core hsep]
  simp [insert_name, insert_location, hne, Token.insert, assocInsert]

/-- Non-whitespace characters other than `'>'` (and `'\\'`) keep the
autolink-open state unchanged. -/
theorem il_ql_core_skip (V : Validators) (content : List Char) (core : List Char) :
    ∀ (i b : Nat) (rest : List (Nat × Char)) (last : Nat) (buff : List Token),
    (∀ x ∈ core, isWhitespaceChar x = false ∧ x ≠ '>' ∧ x ≠ '\\') →
    inlineLoop V content (List.enumFrom i core ++ rest) (.QuickLink b) last buff =
      inlineLoop V content rest (.QuickLink b) last buff := by
  induction core with
  | nil => intro i b rest last buff _; simp
  | cons c cs ih =>
    intro i b rest last buff h
    obtain ⟨h1, h2, h3⟩ := h c (by simp)
    have hnl : c ≠ '\n' := by
      intro heq
      rw [heq] at h1
      simp [isWhitespaceChar] at h1
    rw [List.enumFrom_cons, List.cons_append]
    simp only [inlineLoop]
    rw [if_neg (by simp [hnl]), if_neg (by simp [h3]), if_neg (by simp [h1]), if_neg h2]
    exact ih (i + 1) b rest last buff (fun y hy => h y (by simp [hy]))

/-- Leading whitespace inside an autolink keeps the state: the trimmed
content so far is empty, so the bail-out check does not fire. -/
theorem il_ql_ws1_skip (V : Validators) (ws1 tail0 : List Char)
    (hws : ∀ x ∈ ws1, isWhitespaceChar x = true ∧ x ≠ '\n') :
    ∀ (u v : List Char), ws1 = u ++ v →
    ∀ (rest : List (Nat × Char)) (last : Nat) (buff : List Token),
    inlineLoop V ('<' :: (ws1 ++ tail0)) (List.enumFrom (1 + u.length) v ++ rest)
      (.QuickLink 0) last buff =
      inlineLoop V ('<' :: (ws1 ++ tail0)) rest (.QuickLink 0) last buff := by
  intro u v
  induction v generalizing u with
  | nil => intro _ rest last buff; simp
  | cons c v' ih =>
    intro huv rest last buff
    have hc := hws c (by rw [huv]; simp)
    have hbs : c ≠ '\\' := by
      intro heq
      rw [heq] at hc
      exact absurd hc.1 (by decide)
    have hsl : lslice ('<' :: (ws1 ++ tail0)) (0 + 1) (1 + u.length) = u := by
      rw [show ('<' : Char) :: (ws1 ++ tail0) = '<' :: (u ++ ((c :: v') ++ tail0)) from by
        rw [huv]; simp]
      simpa using lslice_cons_append '<' u ((c :: v') ++ tail0)
    have htrim : trimChars u = [] :=
      trimChars_all_ws (fun x hx => (hws x (by rw [huv]; simp [hx])).1)
    rw [List.enumFrom_cons, List.cons_append]
    simp only [inlineLoop]
    rw [if_neg (by simp [hc.2]), if_neg (by simp [hbs]), if_pos hc.1, hsl, htrim]
    simp only [List.isEmpty_nil, Bool.not_true, Bool.false_and, Bool.false_eq_true, if_false]
    have h2 := ih (u ++ [c]) (by rw [huv]; simp) rest last buff
    rw [show 1 + (u ++ [c]).length = 1 + u.length + 1 from by
      simp only [List.length_append, List.length_cons, List.length_nil]
      omega] at h2
    exact h2

/-- Trailing whitespace inside an autolink whose content so far trims to the
validated core keeps the state. -/
theorem il_ql_ws2_skip (V : Validators) (ws1 core ws2 tail0 : List Char)
    (hws1 : ∀ x ∈ ws1, isWhitespaceChar x = true)
    (hcore : core ≠ []) (hcorews : ∀ x ∈ core, isWhitespaceChar x = false)
    (hws : ∀ x ∈ ws2, isWhitespaceChar x = true ∧ x ≠ '\n')
    (hvalid : (V.isUrl core || V.isEmail core) = true) :
    ∀ (u v : List Char), ws2 = u ++ v →
    ∀ (rest : List (Nat × Char)) (last : Nat) (buff : List Token),
    inlineLoop V ('<' :: (ws1 ++ core ++ ws2 ++ tail0))
      (List.enumFrom (1 + ws1.length + core.length + u.length) v ++ rest)
      (.QuickLink 0) last buff =
      inlineLoop V ('<' :: (ws1 ++ core ++ ws2 ++ tail0)) rest (.QuickLink 0) last buff := by
  intro u v
  induction v generalizing u with
  | nil => intro _ rest last buff; simp
  | cons c v' ih =>
    intro huv rest last buff
    have hc := hws c (by rw [huv]; simp)
    have hbs : c ≠ '\\' := by
      intro heq
      rw [heq] at hc
      exact absurd hc.1 (by decide)
    have hsl : lslice ('<' :: (ws1 ++ core ++ ws2 ++ tail0)) (0 + 1)
        (1 + ws1.length + core.length + u.length) = ws1 ++ core ++ u := by
      rw [show ('<' : Char) :: (ws1 ++ core ++ ws2 ++ tail0) =
          '<' :: ((ws1 ++ core ++ u) ++ ((c :: v') ++ tail0)) from by rw [huv]; simp,
        show 1 + ws1.length + core.length + u.length = 1 + (ws1 ++ core ++ u).length from by
          simp; omega]
      simpa using lslice_cons_append '<' (ws1 ++ core ++ u) ((c :: v') ++ tail0)
    have htrim : trimChars (ws1 ++ core ++ u) = core :=
      trimChars_sandwich hws1 (fun x hx => (hws x (by rw [huv]; simp [hx])).1) hcore hcorews
    rw [List.enumFrom_cons, List.cons_append]
    simp only [inlineLoop]
    rw [if_neg (by simp [hc.2]), if_neg (by simp [hbs]), if_pos hc.1, hsl, htrim, hvalid]
    simp only [Bool.not_true, Bool.and_false, Bool.false_eq_true, if_false]
    have h2 := ih (u ++ [c]) (by rw [huv]; simp) rest last buff
    rw [show 1 + ws1.length + core.length + (u ++ [c]).length =
        1 + ws1.length + core.length + u.length + 1 from by
      simp only [List.length_append, List.length_cons, List.length_nil]
      omega] at h2
    exact h2

theorem il_ql_gt_valid (V : Validators) (content : List Char) (ix b : Nat)
    (rest : List (Nat × Char)) (last : Nat) (buff : List Token)
    (hvalid : (V.isUrl (trimChars (lslice content (b + 1) ix)) ||
      V.isEmail (trimChars (lslice content (b + 1) ix))) = true) :
    inlineLoop V content ((ix, '>') :: rest) (.QuickLink b) last buff =
      inlineLoop V content rest .Normal (ix + 1)
        ((buff ++ textIf (lslice content last b)) ++
          [split_generic_link_details (lslice content b (ix + 1))
            (trimChars (lslice content (b + 1) ix)) (trimChars (lslice content (b + 1) ix))
            .QuickLink]) := by
  simp [inlineLoop, hvalid, (by decide : isWhitespaceChar '>' = false)]

theorem il_ql_gt_invalid (V : Validators) (content : List Char) (ix b : Nat)
    (rest : List (Nat × Char)) (last : Nat) (buff : List Token)
    (hvalid : (V.isUrl (trimChars (lslice content (b + 1) ix)) ||
      V.isEmail (trimChars (lslice content (b + 1) ix))) = false) :
    inlineLoop V content ((ix, '>') :: rest) (.QuickLink b) last buff =
      inlineLoop V content rest .Normal last buff := by
  simp [inlineLoop, hvalid, (by decide : isWhitespaceChar '>' = false)]

/-- C6 (amended): an angle-bracket span whose whitespace-trimmed content the
pluggable validators accept produces exactly one `QuickLink` token with name
and location both equal to the trimmed content and no title; a span whose
content fails both validators produces no `QuickLink` and stays literal text
— except that a span spelling the line's trailing `<br>` marker is consumed
by the line-break trim instead.  The scenario `"<user@example.com>\n"` lexes
to exactly one `QuickLink` with name = location = `user@example.com`. -/
theorem C6_autolink_amended (V : Validators) :
    (∀ ws1 core ws2 : List Char,
      core ≠ [] →
      (∀ x ∈ core, isWhitespaceChar x = false ∧ x ≠ '>' ∧ x ≠ '\\') →
      (∀ x ∈ ws1, isWhitespaceChar x = true ∧ x ≠ '\n') →
      (∀ x ∈ ws2, isWhitespaceChar x = true ∧ x ≠ '\n') →
      (V.isUrl core || V.isEmail core) = true →
      (['<', 'b', 'r', '>'] : List Char).isSuffixOf
        (('<' :: (ws1 ++ core ++ ws2)) ++ ['>']) = false →
      split_inline V ('<' :: ws1 ++ core ++ ws2 ++ ['>', '\n']) =
        [⟨('<' :: (ws1 ++ core ++ ws2)) ++ ['>'], .QuickLink,
          some [(.name, core), (.location, core)]⟩]) ∧
    (∀ core : List Char,
      core ≠ [] →
      (∀ x ∈ core, isWhitespaceChar x = false ∧ x ≠ '>' ∧ x ≠ '\\') →
      (V.isUrl core || V.isEmail core) = false →
      (['<', 'b', 'r', '>'] : List Char).isSuffixOf (('<' :: core) ++ ['>']) = false →
      split_inline V ('<' :: core ++ ['>', '\n']) =
        [⟨('<' :: core) ++ ['>'], .Text, none⟩]) ∧
    lexLine "<user@example.com>\n" =
      [⟨"<user@example.com>".toList, .QuickLink,
        some [(.name, "user@example.com".toList), (.location, "user@example.com".toList)]⟩] := by
  refine ⟨?_, ?_, by decide⟩
  · intro ws1 core ws2 hne hcore hws1 hws2 hvalid hbr
    have hcorews : ∀ x ∈ core, isWhitespaceChar x = false := fun x hx => (hcore x hx).1
    have hws1w : ∀ x ∈ ws1, isWhitespaceChar x = true := fun x hx => (hws1 x hx).1
    rw [show ('<' : Char) :: ws1 ++ core ++ ws2 ++ ['>', '\n'] =
      '<' :: (ws1 ++ (core ++ (ws2 ++ ['>', '\n']))) from by simp]
    have henum : ('<' :: (ws1 ++ (core ++ (ws2 ++ ['>', '\n'])))).enum =
        (0, '<') :: (List.enumFrom 1 ws1 ++
          (List.enumFrom (1 + ws1.length) core ++
            (List.enumFrom (1 + ws1.length + core.length) ws2 ++
              [(1 + ws1.length + core.length + ws2.length, '>'),
               (1 + ws1.length + core.length + ws2.length + 1, '\n')]))) := by
      simp [List.enum, List.enumFrom_cons, List.enumFrom_append]
    have hslGT : lslice ('<' :: (ws1 ++ (core ++ (ws2 ++ ['>', '\n'])))) (0 + 1)
        (1 + ws1.length + core.length + ws2.length) = ws1 ++ core ++ ws2 := by
      rw [show ('<' : Char) :: (ws1 ++ (core ++ (ws2 ++ ['>', '\n']))) =
          '<' :: ((ws1 ++ core ++ ws2) ++ ['>', '\n']) from by simp,
        show 1 + ws1.length + core.length + ws2.length =
          1 + (ws1 ++ core ++ ws2).length from by simp; omega]
      simpa using lslice_cons_append '<' (ws1 ++ core ++ ws2) ['>', '\n']
    have htrimGT : trimChars (ws1 ++ core ++ ws2) = core :=
      trimChars_sandwich hws1w (fun x hx => (hws2 x hx).1) hne hcorews
    have hval' : (V.isUrl (trimChars (lslice ('<' :: (ws1 ++ (core ++ (ws2 ++ ['>', '\n']))))
        (0 + 1) (1 + ws1.length + core.length + ws2.length))) ||
        V.isEmail (trimChars (lslice ('<' :: (ws1 ++ (core ++ (ws2 ++ ['>', '\n']))))
        (0 + 1) (1 + ws1.length + core.length + ws2.length)))) = true := by
      rw [hslGT, htrimGT]
      exact hvalid
    have hsval : lslice ('<' :: (ws1 ++ (core ++ (ws2 ++ ['>', '\n'])))) 0
        (1 + ws1.length + core.length + ws2.length + 1) =
        ('<' :: (ws1 ++ core ++ ws2)) ++ ['>'] := by
      rw [show ('<' : Char) :: (ws1 ++ (core ++ (ws2 ++ ['>', '\n']))) =
          (('<' :: (ws1 ++ core ++ ws2)) ++ ['>']) ++ ['\n'] from by simp,
        show 1 + ws1.length + core.length + ws2.length + 1 =
          (('<' :: (ws1 ++ core ++ ws2)) ++ ['>']).length from by simp; omega]
      exact lslice_prefix _ _
    have hil : inlineLoop V ('<' :: (ws1 ++ (core ++ (ws2 ++ ['>', '\n']))))
        (('<' :: (ws1 ++ (core ++ (ws2 ++ ['>', '\n'])))).enum) .Normal 0 [] =
        [⟨('<' :: (ws1 ++ core ++ ws2)) ++ ['>'], .QuickLink,
          some [(.name, core), (.location, core)]⟩] := by
      rw [henum, il_normal_langle]
      have h1 := il_ql_ws1_skip V ws1 (core ++ (ws2 ++ ['>', '\n'])) hws1 [] ws1 (by simp)
        (List.enumFrom (1 + ws1.length) core ++
          (List.enumFrom (1 + ws1.length + core.length) ws2 ++
            [(1 + ws1.length + core.length + ws2.length, '>'),
             (1 + ws1.length + core.length + ws2.length + 1, '\n')])) 0 []
      simp only [List.length_nil, Nat.add_zero] at h1
      rw [h1, il_ql_core_skip V _ core (1 + ws1.length) 0 _ 0 [] hcore]
      have h2 := il_ql_ws2_skip V ws1 core ws2 ['>', '\n'] hws1w hne hcorews hws2 hvalid
        [] ws2 (by simp)
        [(1 + ws1.length + core.length + ws2.length, '>'),
         (1 + ws1.length + core.length + ws2.length + 1, '\n')] 0 []
      simp only [List.length_nil, Nat.add_zero, List.append_assoc] at h2
      rw [h2, il_ql_gt_valid V _ (1 + ws1.length + core.length + ws2.length) 0 _ 0 [] hval',
        il_nl, hslGT, htrimGT, hsval, lslice_self, lslice_self,
        sgld_quicklink _ core hne hcorews]
      simp [textIf, trimEnd, trimEndMatchesBr, stripBrAux]
    have hhb : has_br ('<' :: (ws1 ++ (core ++ (ws2 ++ ['>', '\n'])))) = false := by
      rw [show ('<' : Char) :: (ws1 ++ (core ++ (ws2 ++ ['>', '\n']))) =
        ('<' :: (ws1 ++ core ++ ws2)) ++ ['>', '\n'] from by simp]
      exact has_br_false_gt _ hbr
    unfold split_inline
    rw [hil, hhb]
    simp only [Bool.false_eq_true, if_false]
    apply tidy_no_marks
    intro t ht
    rcases (by simpa using ht :
      t = (⟨('<' :: (ws1 ++ core ++ ws2)) ++ ['>'], .QuickLink,
        some [(.name, core), (.location, core)]⟩ : Token)) with rfl
    exact ⟨by simp, by simp, by simp⟩
  · intro core hne hcore hvalid hbr
    have hcorews : ∀ x ∈ core, isWhitespaceChar x = false := fun x hx => (hcore x hx).1
    have henum : ('<' :: core ++ ['>', '\n']).enum =
        (0, '<') :: (List.enumFrom 1 core ++
          [(1 + core.length, '>'), (1 + core.length + 1, '\n')]) := by
      simp [List.enum, List.enumFrom_cons, List.enumFrom_append]
    have hsl : lslice ('<' :: core ++ ['>', '\n']) (0 + 1) (1 + core.length) = core := by
      simpa using lslice_cons_append '<' core ['>', '\n']
    have hval' : (V.isUrl (trimChars (lslice ('<' :: core ++ ['>', '\n'])
        (0 + 1) (1 + core.length))) ||
        V.isEmail (trimChars (lslice ('<' :: core ++ ['>', '\n'])
        (0 + 1) (1 + core.length)))) = false := by
      rw [hsl, trimChars_eq_self hcorews]
      exact hvalid
    have hsl2 : lslice ('<' :: core ++ ['>', '\n']) 0 (1 + core.length + 1) =
        ('<' :: core) ++ ['>'] := by
      rw [show ('<' : Char) :: core ++ ['>', '\n'] =
          (('<' :: core) ++ ['>']) ++ ['\n'] from by simp,
        show 1 + core.length + 1 = (('<' :: core) ++ ['>']).length from by simp; omega]
      exact lslice_prefix _ _
    have hil : inlineLoop V ('<' :: core ++ ['>', '\n'])
        (('<' :: core ++ ['>', '\n']).enum) .Normal 0 [] =
        [⟨('<' :: core) ++ ['>'], .Text, none⟩] := by
      rw [henum, il_normal_langle, il_ql_core_skip V _ core 1 0 _ 0 [] hcore,
        il_ql_gt_invalid V _ (1 + core.length) 0 _ 0 [] hval', il_nl, hsl2]
      rw [show trimEnd (('<' :: core) ++ ['>']) = ('<' :: core) ++ ['>'] from
        trimEnd_append_nonws _ '>' (by decide)]
      rw [trimEndMatchesBr_no_br _ hbr]
      simp [textIf]
    have hhb : has_br ('<' :: core ++ ['>', '\n']) = false := by
      rw [show ('<' : Char) :: core ++ ['>', '\n'] = ('<' :: core) ++ ['>', '\n'] from by simp]
      exact has_br_false_gt _ hbr
    unfold split_inline
    rw [hil, hhb]
    simp only [Bool.false_eq_true, if_false]
    apply tidy_no_marks
    intro t ht
    rcases (by simpa using ht :
      t = (⟨('<' :: core) ++ ['>'], .Text, none⟩ : Token)) with rfl
    exact ⟨by simp, by simp, by simp⟩

theorem C6_witness :
    split_inline specValidators ('<' :: [] ++ "user@example.com".toList ++ [] ++ ['>', '\n']) =
      [⟨('<' :: ([] ++ "user@example.com".toList ++ [])) ++ ['>'], .QuickLink,
        some [(.name, "user@example.com".toList), (.location, "user@example.com".toList)]⟩] :=
  (C6_autolink_amended specValidators).1 [] "user@example.com".toList []
    (by decide) (by decide) (by decide) (by decide) (by decide) (by decide)

/-- C6 counterexample: the span `<br>` has content `br`, valid as neither URL
nor email (no QuickLink is produced), yet it is not treated as literal text —
the trailing-`<br>` trim consumes it and the line yields a `LineBreak`. -/
theorem C6_counterexample :
    lexLine "<br>\n" = [⟨['<', 'b', 'r', '>'], .LineBreak, none⟩] := by decide

/-! ## C8: ordered-list marks -/

theorem isOrderedWord_iff (w : List Char) :
    isOrderedWord w = true ↔
    ∃ d1 ds, w = (d1 :: ds) ++ ['.'] ∧ ds.length ≤ 2 ∧ digit19 d1 = true ∧
      ∀ c ∈ ds, digit09 c = true := by
  constructor
  · intro h
    rcases w with _ | ⟨a, _ | ⟨b, _ | ⟨c, _ | ⟨d, _ | ⟨e, r⟩⟩⟩⟩⟩ <;>
      simp [isOrderedWord] at h
    · exact ⟨a, [], by simp [h.2], by simp, h.1, by simp⟩
    · obtain ⟨⟨ha, hb⟩, hc⟩ := h
      exact ⟨a, [b], by simp [hc], by simp, ha, by simp [hb]⟩
    · obtain ⟨⟨⟨ha, hb⟩, hc⟩, hd⟩ := h
      refine ⟨a, [b, c], by simp [hd], by simp, ha, ?_⟩
      intro x hx
      rcases (by simpa using hx : x = b ∨ x = c) with rfl | rfl
      · exact hb
      · exact hc
  · rintro ⟨d1, ds, rfl, hlen, hd1, hds⟩
    rcases ds with _ | ⟨a, _ | ⟨b, r⟩⟩
    · simp [isOrderedWord, hd1]
    · simp [isOrderedWord, hd1, hds a (by simp)]
    · rcases r with _ | ⟨x, r2⟩
      · simp [isOrderedWord, hd1, hds a (by simp), hds b (by simp)]
      · simp at hlen

/-- C8 (amended): the classifier emits an `OrderedMark` for a first word `w`
(with that word as the token's value) exactly when `w` is a run of one to
three digits whose first digit is in `1..9` followed by `'.'`. -/
theorem C8_ordered_amended (line w : List Char) :
    (∃ t, extract_mark line w = some t ∧ t.kind = .OrderedMark ∧ t.value = w) ↔
    (∃ d1 ds, w = (d1 :: ds) ++ ['.'] ∧ ds.length ≤ 2 ∧ digit19 d1 = true ∧
      ∀ c ∈ ds, digit09 c = true) := by
  constructor
  · rintro ⟨t, ht, hk, hv⟩
    unfold extract_mark at ht
    split_ifs at ht with h1 h2 h3 h4 h5 h6 h7 h8 h9
    · cases ht; simp at hk
    · cases ht
      exact (isOrderedWord_iff w).mp h2
    · cases ht; simp at hk
    · cases ht; simp at hk
    · cases ht; simp at hk
    · cases ht; simp at hk
    · cases ht; simp at hk
    · cases ht; simp at hk
  · rintro ⟨d1, ds, hw, hlen, hd1, hds⟩
    refine ⟨⟨w, .OrderedMark, none⟩, ?_, rfl, rfl⟩
    have hord : isOrderedWord w = true := (isOrderedWord_iff w).mpr ⟨d1, ds, hw, hlen, hd1, hds⟩
    subst hw
    rcases ds with _ | ⟨a, _ | ⟨b, r⟩⟩
    · simp only [extract_mark, hord]
      simp [List.cons_append]
    · simp only [extract_mark, hord]
      simp [List.cons_append]
    · rcases r with _ | ⟨x, r2⟩
      · simp only [extract_mark, hord]
        simp [List.cons_append]
      · simp at hlen

theorem C8_witness :
    ∃ t, extract_mark [] ['1', '.'] = some t ∧ t.kind = .OrderedMark ∧ t.value = ['1', '.'] :=
  (C8_ordered_amended [] ['1', '.']).mpr ⟨'1', [], rfl, by decide, by decide, by decide⟩

/-- C8 counterexample: `"0."` is a one-digit run followed by `'.'`, but the
classifier rejects it (the first digit must be `1..9`), so the line lexes to
plain text. -/
theorem C8_counterexample :
    lexLine "0. x\n" = [⟨['0', '.', ' ', 'x'], .Text, none⟩] := by decide

/-! ## C9: the link-accessor contract -/

/-- C9: `as_generic_link` (with the panic embedded as `none`) fails exactly
when the token's kind is outside the link family; on a link-family token it
returns the accessor wrapper exposing the stored attributes. -/
theorem C9_accessor_contract (t : Token) :
    (as_generic_link t = none ↔
      ¬(t.kind = .Link ∨ t.kind = .Image ∨ t.kind = .RefLink ∨ t.kind = .RefLinkDef ∨
        t.kind = .QuickLink)) ∧
    ((t.kind = .Link ∨ t.kind = .Image ∨ t.kind = .RefLink ∨ t.kind = .RefLinkDef ∨
        t.kind = .QuickLink) →
      ∃ g, as_generic_link t = some g ∧ g.name = t.attr .name ∧
        g.location = t.attr .location ∧ g.title = t.attr .title) := by
  constructor
  · unfold as_generic_link isLinkFamily
    by_cases h : t.kind = .Link ∨ t.kind = .Image ∨ t.kind = .RefLink ∨ t.kind = .RefLinkDef ∨
      t.kind = .QuickLink
    · simp [h]
      tauto
    · simp [h]
      tauto
  · intro h
    refine ⟨⟨t⟩, ?_, rfl, rfl, rfl⟩
    unfold as_generic_link isLinkFamily
    simp
    tauto

theorem C9_witness :
    ∃ g, as_generic_link ⟨['x'], .Link, none⟩ = some g ∧
      g.name = Token.attr ⟨['x'], .Link, none⟩ .name ∧
      g.location = Token.attr ⟨['x'], .Link, none⟩ .location ∧
      g.title = Token.attr ⟨['x'], .Link, none⟩ .title :=
  (C9_accessor_contract ⟨['x'], .Link, none⟩).2 (Or.inl rfl)

/-! ## C2: dividing lines -/

/-- C2 (amended): for every newline-terminated line whose non-whitespace
content is a single character from `{*, -, _}` repeated at least three times
(whitespace interspersed allowed), the lexer emits a `WhiteSpace` token for
the leading whitespace when it is nonempty, followed by exactly one
`DividingMark` token whose value is the line with the trailing newline
trimmed, and nothing else. -/
theorem C2_dividing_amended (V : Validators) (ws body : List Char) (c : Char)
    (hc : c = '*' ∨ c = '-' ∨ c = '_')
    (hws : ∀ x ∈ ws, isWhitespaceChar x = true ∧ x ≠ '\n')
    (hbody : ∀ x ∈ body, x = c ∨ (isWhitespaceChar x = true ∧ x ≠ '\n'))
    (hcnt : 2 ≤ body.count c) :
    split V (ws ++ (c :: body) ++ ['\n']) =
      (if ws = [] then [] else [⟨ws, .WhiteSpace, none⟩]) ++
        [⟨ws ++ (c :: body), .DividingMark, none⟩] := by
  have hcws : isWhitespaceChar c = false := by
    rcases hc with rfl | rfl | rfl <;> decide
  have hcnl : c ≠ '\n' := by
    rcases hc with rfl | rfl | rfl <;> decide
  have hdecomp : body ++ ['\n'] =
      (body ++ ['\n']).takeWhile (fun x => !(isWhitespaceChar x)) ++
      (body ++ ['\n']).dropWhile (fun x => !(isWhitespaceChar x)) :=
    (List.takeWhile_append_dropWhile _ _).symm
  obtain ⟨dch, dtl, hdtl⟩ : ∃ dch dtl,
      (body ++ ['\n']).dropWhile (fun x => !(isWhitespaceChar x)) = dch :: dtl := by
    cases hcase : (body ++ ['\n']).dropWhile (fun x => !(isWhitespaceChar x)) with
    | nil =>
      exfalso
      have h2 := List.dropWhile_eq_nil_iff.mp hcase '\n' (by simp)
      simp [isWhitespaceChar] at h2
    | cons a b => exact ⟨a, b, rfl⟩
  have hdws : isWhitespaceChar dch = true := by
    have h3 := dropWhile_head_false hdtl
    simpa using h3
  set tw := (body ++ ['\n']).takeWhile (fun x => !(isWhitespaceChar x)) with htwdef
  have hall : ∀ x ∈ tw, x = c := by
    intro x hx
    have hxX : x ∈ body ++ ['\n'] := (List.takeWhile_prefix _).subset hx
    have hxp : ¬(isWhitespaceChar x = true) := by
      have h4 := List.mem_takeWhile_imp hx
      simpa using h4
    rcases (by simpa using hxX : x ∈ body ∨ x = '\n') with hxb | rfl
    · rcases hbody x hxb with rfl | ⟨hws2, _⟩
      · rfl
      · exact absurd hws2 hxp
    · exact absurd (by decide) hxp
  have hdiv : is_dividing (ws ++ (c :: body) ++ ['\n']) = true :=
    is_dividing_true ws c body hc (fun x hx => (hws x hx).1)
      (fun x hx => (hbody x hx).elim Or.inl (fun h => Or.inr h.1)) hcnt
  have hm := extract_mark_dividing (ws ++ (c :: body) ++ ['\n']) c tw hc hall hdiv
  have htrim : trimEndNewlines (ws ++ (c :: body) ++ ['\n']) = ws ++ (c :: body) := by
    apply trimEndNewlines_append
    intro x hx
    rcases (by simpa using hx : x ∈ ws ∨ x = c ∨ x ∈ body) with h5 | rfl | h5
    · exact (hws x h5).2
    · exact hcnl
    · rcases hbody x h5 with rfl | ⟨_, h6⟩
      · exact hcnl
      · exact h6
  have henum : (ws ++ (c :: body) ++ ['\n']).enum =
      List.enumFrom 0 ws ++ (0 + ws.length, c) ::
        (List.enumFrom (0 + ws.length + 1) tw ++
          List.enumFrom (0 + ws.length + 1 + tw.length) (dch :: dtl)) := by
    rw [List.enum, List.append_assoc, List.enumFrom_append]
    congr 1
    rw [show (c :: body) ++ ['\n'] = c :: (body ++ ['\n']) from rfl, List.enumFrom_cons]
    congr 1
    conv_lhs => rw [hdecomp, hdtl]
    rw [List.enumFrom_append]
  have hsl0 : lslice (ws ++ (c :: body) ++ ['\n']) 0 (0 + ws.length) = ws := by
    rw [Nat.zero_add, List.append_assoc]
    exact lslice_prefix ws _
  have hsl1 : lslice (ws ++ (c :: body) ++ ['\n']) (0 + ws.length)
      (0 + ws.length + 1 + tw.length) = c :: tw := by
    have h4 : ws ++ (c :: body) ++ ['\n'] = ws ++ ((c :: tw) ++ (dch :: dtl)) := by
      rw [List.append_assoc]
      congr 1
      rw [show (c :: body) ++ ['\n'] = c :: (body ++ ['\n']) from rfl]
      conv_lhs => rw [hdecomp, hdtl]
      simp
    rw [h4, Nat.zero_add,
      show ws.length + 1 + tw.length = ws.length + (c :: tw).length from by
        simp only [List.length_cons]; omega]
    exact lslice_append ws (c :: tw) (dch :: dtl)
  have hm' : extract_mark (ws ++ (c :: body) ++ ['\n'])
      (lslice (ws ++ (c :: body) ++ ['\n']) (0 + ws.length) (0 + ws.length + 1 + tw.length)) =
      some ⟨trimEndNewlines (ws ++ (c :: body) ++ ['\n']), .DividingMark, none⟩ := by
    rw [hsl1]
    exact hm
  unfold split
  rw [henum, splitLoop_begin_skip _ ws 0 _ [] hws,
    splitLoop_begin_nonws _ (0 + ws.length) c _ [] hcws, hsl0,
    splitLoop_mark_skip _ tw (0 + ws.length + 1) (0 + ws.length) _ _
      (fun x hx => by simpa using List.mem_takeWhile_imp hx),
    List.enumFrom_cons,
    splitLoop_mark_some _ (0 + ws.length + 1 + tw.length) (0 + ws.length) dch _ _ _ hdws hm']
  simp only [htrim]
  simp [splitLoop_finished, List.isEmpty_iff]

/-- C2 counterexample: the claim's "exactly one token, with or without a
terminating newline" fails — with leading whitespace a `WhiteSpace` token
precedes the `DividingMark`, and the particular line `"***"` without a
terminating newline produces no token at all. -/
theorem C2_counterexample :
    lexLine " ***\n" =
      [⟨[' '], .WhiteSpace, none⟩, ⟨[' ', '*', '*', '*'], .DividingMark, none⟩] ∧
    lexLine "***" = [] := by
  exact ⟨by decide, by decide⟩

theorem C2_witness :
    split specValidators ([' '] ++ ('-' :: ['-', '-']) ++ ['\n']) =
      [⟨[' '], .WhiteSpace, none⟩, ⟨[' ', '-', '-', '-'], .DividingMark, none⟩] := by
  have h := C2_dividing_amended specValidators [' '] ['-', '-'] '-'
    (by decide) (by decide) (by decide) (by decide)
  simpa using h

/-! ## C3: whitespace-only lines -/

/-- C3 (amended): for every newline-terminated line of whitespace, the lexer
returns exactly one `BlankLine` token holding the skipped whitespace. -/
theorem C3_blankline_amended (V : Validators) (ws : List Char)
    (hws : ∀ x ∈ ws, isWhitespaceChar x = true ∧ x ≠ '\n') :
    split V (ws ++ ['\n']) = [⟨ws, .BlankLine, none⟩] := by
  unfold split
  have henum : (ws ++ ['\n']).enum =
      List.enumFrom 0 ws ++ List.enumFrom (0 + ws.length) ['\n'] := by
    rw [List.enum, List.enumFrom_append]
  rw [henum, splitLoop_begin_skip _ ws 0 _ [] hws,
    show List.enumFrom (0 + ws.length) ['\n'] = [(ws.length, '\n')] from by
      simp [List.enumFrom_cons],
    splitLoop_begin_nl, lslice_prefix ws ['\n']]
  simp [splitLoop]

/-- C3 counterexample: a whitespace-only line without the terminating newline
produces no token at all (not one `BlankLine`). -/
theorem C3_counterexample : lexLine " " = [] := by decide

theorem C3_blankline_witness : lexLine " \t\n" = [⟨[' ', '\t'], .BlankLine, none⟩] := by
  have h := C3_blankline_amended specValidators [' ', '\t'] (by decide)
  simpa [lexLine] using h

/-! ## C10: leading whitespace run -/

/-- C10: when a line's first non-whitespace character is preceded by at least
one whitespace character, the first token is `WhiteSpace` holding exactly the
leading run (lines contain no embedded newline, per the input contract). -/
theorem C10_leading_whitespace (V : Validators) (ws tail : List Char) (c : Char)
    (hne : ws ≠ []) (hws : ∀ x ∈ ws, isWhitespaceChar x = true ∧ x ≠ '\n')
    (hc : isWhitespaceChar c = false) :
    (split V (ws ++ c :: tail)).head? = some ⟨ws, .WhiteSpace, none⟩ := by
  unfold split
  have henum : (ws ++ c :: tail).enum =
      List.enumFrom 0 ws ++ List.enumFrom (0 + ws.length) (c :: tail) := by
    rw [List.enum, List.enumFrom_append]
  rw [henum, splitLoop_begin_skip _ ws 0 _ [] hws, List.enumFrom_cons,
    splitLoop_begin_nonws _ (0 + ws.length) c _ [] hc]
  rw [show lslice (ws ++ c :: tail) 0 (0 + ws.length) = ws from by
    simpa using lslice_prefix ws (c :: tail)]
  rw [if_neg (by simpa using hne), splitLoop_buffer]
  rcases hR : (splitLoop (ws ++ c :: tail)
      (List.enumFrom (0 + ws.length + 1) tail) (.Mark (0 + ws.length)) []).1 with
    _ | bg | bg | _ <;> simp

theorem C10_witness :
    (lexLine "  x").head? = some ⟨[' ', ' '], .WhiteSpace, none⟩ := by
  have h := C10_leading_whitespace specValidators [' ', ' '] [] 'x'
    (by decide) (by decide) (by decide)
  simpa [lexLine] using h

end Medup
